import Mathlib

/-!
# YosysYodelers: path search and path isomorphism over the bit dependency graph

Shallow embedding of `path_existence/main.cc` (`LtpWorker`) and
`path_isomorphism/main_opt.cc` (`GraphIsomorphismWorker`).

Modelling conventions.

* A `SigBit` is a canonical bit (the result of `sigmap`); `sigmap` is the identity on
  canonical bits, and every bit the workers handle has been canonicalised by the
  constructor or by `execute`.  Bits and cells are identified by natural numbers.
* `dict<SigBit, dict<SigBit, Cell*>>` is an association list in iteration order; `succs`
  is the lookup `bit2bits.count(b) ? bit2bits.at(b) : {}`.
* `pool<SigBit>` is a list; `insert` is `::` (the source inserts only after testing
  that the bit is absent) and `erase` is `List.erase`.
* `std::vector::push_back` is `· ++ [x]`.
* The constructors read the module through `module->cells()`, `cell->connections()`,
  `cell->input`, `cell->output` and `sigmap`; a cell is modelled as its identity and its
  connections (bits and direction flags), and `sigmap` is a parameter of the builder.
* Recursion is bounded by a fuel argument; `none` means the fuel ran out.  Termination
  theorems show which fuel always suffices.
-/

namespace YosysYodelers

/-- Canonical signal bit. -/
abbrev SigBit := Nat

/-- Cell identity. -/
abbrev Cell := Nat

/-- The adjacency map `dict<SigBit, dict<SigBit, Cell*>>`, in iteration order. -/
abbrev Bit2Bits := List (SigBit × List (SigBit × Cell))

/-- The entries iterated by `for (auto &it : bit2bits.at(b))`, guarded by
`bit2bits.count(b)`: empty when `b` is not a key. -/
def succs : Bit2Bits → SigBit → List (SigBit × Cell)
  | [], _ => []
  | (k, m) :: rest, b => if k = b then m else succs rest b

/-! ## path_existence/main.cc: `LtpWorker` -/

/-- The fields of `LtpWorker` fixed by the constructor. -/
structure LtpWorker where
  bit2bits : Bit2Bits
  from_bit : SigBit
  to_bit : Option SigBit

/-- The fields of `LtpWorker` mutated by `dfs`. -/
structure LtpState where
  busy : List SigBit
  path : List SigBit
  path_with_cells : List (SigBit × Cell)
  deriving DecidableEq

/-- State of a freshly constructed worker. -/
def LtpState.init : LtpState := ⟨[], [], []⟩

/-- The `for (auto &it : bit2bits.at(current_bit))` loop of `LtpWorker::dfs` (lines 81-89);
`rec` is the recursive call, `targeted` is `to_bit != nullptr`, the `Bool` is
`path_exists`. -/
def dfsLoop (rec : SigBit → LtpState → Option (Bool × LtpState)) (targeted : Bool)
    (current_bit : SigBit) :
    List (SigBit × Cell) → Bool → LtpState → Option (Bool × LtpState)
  | [], path_exists, st => some (path_exists, st)
  | it :: rest, path_exists, st =>
    match rec it.1 st with
    | none => none
    | some (true, st1) =>
      let st2 := { st1 with path_with_cells := st1.path_with_cells ++ [(current_bit, it.2)] }
      if targeted then some (true, st2)
      else dfsLoop rec targeted current_bit rest true st2
    | some (false, st1) => dfsLoop rec targeted current_bit rest path_exists st1

/-- The method `LtpWorker::dfs` (lines 60-98). -/
def dfs (w : LtpWorker) : Nat → SigBit → LtpState → Option (Bool × LtpState)
  | 0, _, _ => none
  | fuel + 1, current_bit, st =>
    let st1 := if current_bit = w.from_bit then { st with path := st.path ++ [current_bit] } else st
    if w.to_bit = some current_bit then
      some (true, { st1 with path := st1.path ++ [current_bit] })
    else if current_bit ∈ st1.busy then
      some (false, st1)
    else
      let st2 := { st1 with busy := current_bit :: st1.busy }
      match dfsLoop (dfs w fuel) w.to_bit.isSome current_bit (succs w.bit2bits current_bit)
          false st2 with
      | none => none
      | some (path_exists, st3) =>
        let st4 := if w.to_bit = none ∨ path_exists = true
          then { st3 with path := st3.path ++ [current_bit] } else st3
        some (path_exists, { st4 with busy := st4.busy.erase current_bit })

/-- What `LtpWorker::run` logs: the numbered records, or one of the two warnings. -/
inductive Report where
  | records (rs : List (Nat × SigBit × Option Cell))
  | no_path_to (src dst : SigBit)
  | no_paths_from (src : SigBit)
  deriving DecidableEq

/-- Outcome of `LtpWorker::run`: the field `path_found`, the final state (with `path`
reversed in place) and the log. -/
structure LtpRun where
  path_found : Bool
  st : LtpState
  report : Report
  deriving DecidableEq

/-- The method `LtpWorker::run` (lines 100-130). -/
def run (w : LtpWorker) (fuel : Nat) : Option LtpRun :=
  match dfs w fuel w.from_bit LtpState.init with
  | none => none
  | some (found, st) =>
    if st.path ≠ [] then
      let path := st.path.reverse
      let path_size :=
        if path.head? = path.getLast? ∧ path.length > 1 then path.length - 1 else path.length
      let rs := (List.range path_size).map fun i =>
        (i, path.getD i 0, (st.path_with_cells.get? i).map Prod.snd)
      some ⟨found, { st with path := path }, Report.records rs⟩
    else
      match w.to_bit with
      | some t => some ⟨found, st, Report.no_path_to w.from_bit t⟩
      | none => some ⟨found, st, Report.no_paths_from w.from_bit⟩

/-- The bits of the reported records, in order. -/
def Report.bits : Report → List SigBit
  | Report.records rs => rs.map fun r => r.2.1
  | _ => []

/-- The `via` column of the reported records, in order. -/
def Report.vias : Report → List (Option Cell)
  | Report.records rs => rs.map fun r => r.2.2
  | _ => []

/-! ## path_isomorphism/main_opt.cc: `GraphIsomorphismWorker` -/

/-- The fields of `GraphIsomorphismWorker` fixed by the constructor.  `bits` lists the
keys of the dict `bits` (the canonical bits of the selected wires) in iteration order;
the tuples stored under them are never read. -/
structure GraphIsomorphismWorker where
  bits : List SigBit
  bit2bits : Bit2Bits
  from_bit_a : SigBit
  from_bit_b : SigBit
  to_bit_a : SigBit
  to_bit_b : SigBit

/-- The locals `visited`, `processed` of `topological_sort` and the field
`topo_order`. -/
structure TopoState where
  visited : List SigBit
  processed : List SigBit
  topo_order : List SigBit
  deriving DecidableEq

/-- The message of the `log_cmd_error` call in `topological_sort`. -/
def cycleError : String := "Found a cycle in the circuit!"

/-- A sequence of calls `dfs(b)` of the lambda of `topological_sort`: the loop
`for (auto &p : bit2bits.at(bit)) dfs(p.first)` (lines 61-62) and the loop
`for (auto &it : bits) dfs(it.first)` (lines 69-70).  An error thrown by a call ends
the loop. -/
def topoLoop (rec : SigBit → TopoState → Option (Except String TopoState)) :
    List SigBit → TopoState → Option (Except String TopoState)
  | [], st => some (Except.ok st)
  | b :: rest, st =>
    match rec b st with
    | none => none
    | some (Except.error e) => some (Except.error e)
    | some (Except.ok st1) => topoLoop rec rest st1

/-- The lambda `dfs` of `topological_sort` (lines 51-67). -/
def topoDfs (g : Bit2Bits) : Nat → SigBit → TopoState → Option (Except String TopoState)
  | 0, _, _ => none
  | fuel + 1, bit, st =>
    if bit ∈ st.processed then some (Except.ok st)
    else if bit ∈ st.visited then some (Except.error cycleError)
    else
      let st1 := { st with visited := bit :: st.visited }
      match topoLoop (topoDfs g fuel) ((succs g bit).map Prod.fst) st1 with
      | none => none
      | some (Except.error e) => some (Except.error e)
      | some (Except.ok st2) =>
        some (Except.ok { st2 with processed := bit :: st2.processed,
                                   topo_order := st2.topo_order ++ [bit] })

/-- The method `GraphIsomorphismWorker::topological_sort` (lines 47-73); the result is
`topo_order`, or the error thrown by `log_cmd_error`. -/
def topological_sort (w : GraphIsomorphismWorker) (fuel : Nat) :
    Option (Except String (List SigBit)) :=
  match topoLoop (topoDfs w.bit2bits fuel) w.bits ⟨[], [], []⟩ with
  | none => none
  | some (Except.error e) => some (Except.error e)
  | some (Except.ok st) => some (Except.ok st.topo_order.reverse)

/-- An entry of `path_a` / `path_b`: the string
`stringf("%s (via %s)", log_signal(bit), via ? log_id(via) : "input")`, kept as the pair
it is rendered from (`none` is the label `input`). -/
abbrev Label := SigBit × Option Cell

/-- The fields `path_a`, `path_b` of `GraphIsomorphismWorker`. -/
structure IsoState where
  path_a : List Label
  path_b : List Label
  deriving DecidableEq

/-- Which field the reference parameter `path` of `runner` is bound to. -/
inductive PathRef where
  | a
  | b
  deriving DecidableEq

/-- Reading through the reference `path`. -/
def IsoState.path (st : IsoState) : PathRef → List Label
  | PathRef.a => st.path_a
  | PathRef.b => st.path_b

/-- The call `path.push_back(l)`. -/
def IsoState.push_back (st : IsoState) (l : Label) : PathRef → IsoState
  | PathRef.a => { st with path_a := st.path_a ++ [l] }
  | PathRef.b => { st with path_b := st.path_b ++ [l] }

/-- The call `path.pop_back()`. -/
def IsoState.pop_back (st : IsoState) : PathRef → IsoState
  | PathRef.a => { st with path_a := st.path_a.dropLast }
  | PathRef.b => { st with path_b := st.path_b.dropLast }

/-- The loop of `runner` (lines 82-84): the first successful call returns. -/
def runnerLoop (rec : SigBit → Option Cell → IsoState → Option (Bool × IsoState)) :
    List (SigBit × Cell) → IsoState → Option (Bool × IsoState)
  | [], st => some (false, st)
  | it :: rest, st =>
    match rec it.1 (some it.2) st with
    | none => none
    | some (true, st1) => some (true, st1)
    | some (false, st1) => runnerLoop rec rest st1

/-- The method `GraphIsomorphismWorker::runner` (lines 75-89).  The test `path == path_a`
compares the vector behind the reference with the field `path_a` element by element. -/
def runner (w : GraphIsomorphismWorker) (path : PathRef) :
    Nat → SigBit → Option Cell → IsoState → Option (Bool × IsoState)
  | 0, _, _, _ => none
  | fuel + 1, bit, via, st =>
    if (bit = w.to_bit_a ∧ st.path path = st.path_a) ∨
        (bit = w.to_bit_b ∧ st.path path = st.path_b) then
      some (true, st)
    else
      let st1 := st.push_back (bit, via) path
      match runnerLoop (runner w path fuel) (succs w.bit2bits bit) st1 with
      | none => none
      | some (true, st2) => some (true, st2)
      | some (false, st2) => some (false, st2.pop_back path)

/-- State of the loop of `run` (lines 96-110): the local `isomorphic`, the two paths,
and the value each `runner` call returned (`none` while that call has not been made). -/
structure IsoRun where
  isomorphic : Bool
  st : IsoState
  result_a : Option Bool
  result_b : Option Bool
  deriving DecidableEq

/-- The second `if` of the loop body of `run` (lines 104-109), followed by the rest of
the loop `cont`; a failed `runner` call clears `isomorphic` and breaks. -/
def runPairB (w : GraphIsomorphismWorker) (fuel : Nat) (cont : IsoRun → Option IsoRun)
    (bit : SigBit) (r : IsoRun) : Option IsoRun :=
  if bit = w.from_bit_b then
    match runner w PathRef.b fuel bit none r.st with
    | none => none
    | some (false, st1) =>
      some { r with isomorphic := false, st := st1, result_b := some false }
    | some (true, st1) => cont { r with st := st1, result_b := some true }
  else cont r

/-- The loop `for (auto bit : topo_order)` of `run` (lines 96-110): the first `if`
(lines 97-102), then `runPairB`. -/
def runLoop (w : GraphIsomorphismWorker) (fuel : Nat) : List SigBit → IsoRun → Option IsoRun
  | [], r => some r
  | bit :: rest, r =>
    if bit = w.from_bit_a then
      match runner w PathRef.a fuel bit none r.st with
      | none => none
      | some (false, st1) =>
        some { r with isomorphic := false, st := st1, result_a := some false }
      | some (true, st1) =>
        runPairB w fuel (runLoop w fuel rest) bit { r with st := st1, result_a := some true }
    else runPairB w fuel (runLoop w fuel rest) bit r

/-- What `GraphIsomorphismWorker::run` reports: the verdict (`true` for
"Paths are isomorphic"), the two paths, and the value each `runner` call returned. -/
structure IsoReport where
  verdict : Bool
  path_a : List Label
  path_b : List Label
  result_a : Option Bool
  result_b : Option Bool
  deriving DecidableEq

/-- The method `GraphIsomorphismWorker::run` (lines 91-125). -/
def GraphIsomorphismWorker.run (w : GraphIsomorphismWorker) (fuel : Nat) :
    Option (Except String IsoReport) :=
  match topological_sort w fuel with
  | none => none
  | some (Except.error e) => some (Except.error e)
  | some (Except.ok topo_order) =>
    match runLoop w fuel topo_order ⟨true, ⟨[], []⟩, none, none⟩ with
    | none => none
    | some r =>
      some (Except.ok ⟨r.isomorphic && decide (r.st.path_a.length = r.st.path_b.length),
        r.st.path_a, r.st.path_b, r.result_a, r.result_b⟩)

/-! ## Example graphs -/

/-- The chain `A → B → C` of the end-to-end example: bits `A, B, C = 0, 1, 2`, cell
`E = 10` from `A` to `B`, cell `F = 11` from `B` to `C`. -/
def chainABC : Bit2Bits := [(0, [(1, 10)]), (1, [(2, 11)])]

/-- The chain `0 → 1 → 2` with an extra edge `1 → 0` back to the source, iterated
before `1 → 2`. -/
def backEdge : Bit2Bits := [(0, [(1, 10)]), (1, [(0, 12), (2, 11)])]

/-- A single bit driving itself through cell `7`. -/
def selfLoop : Bit2Bits := [(0, [(0, 7)])]

/-- Source `0` with two branches: `1 → 3` is a dead end, `2 → 4` leads on. -/
def twoBranches : Bit2Bits := [(0, [(1, 10), (2, 11)]), (1, [(3, 12)]), (2, [(4, 13)])]

/-- Source `0` with two branches: `1` is a dead end, `2` leads to `3` and also back to the
source; the bit `2` iterates its successor `0` before `3`. -/
def returnBranch : Bit2Bits := [(0, [(1, 10), (2, 11)]), (2, [(0, 12), (3, 13)])]

/-- The edge `0 → 1`, and a bit `5` with two outgoing edges that `0` does not reach. -/
def strayBranching : Bit2Bits := [(0, [(1, 10)]), (5, [(6, 1), (7, 2)])]

/-- A cell `10` whose input is the bit `0` and whose output is the bit `1`; in the
workers below only `1` is the bit of a selected wire (`0` stands for a constant or for
the bit of an unselected wire). -/
def unlistedInput : Bit2Bits := [(0, [(1, 10)])]

/-- Two bits driving each other: `0 → 1` through cell `10`, `1 → 0` through cell `11`. -/
def twoCycle : Bit2Bits := [(0, [(1, 10)]), (1, [(0, 11)])]

/-- `Edge g u v`: the adjacency map has an entry `u → v`. -/
def Edge (g : Bit2Bits) (u v : SigBit) : Prop := ∃ c, (v, c) ∈ succs g u

/-- `Reach g u v`: `v` is reachable from `u` by following zero or more edges. -/
def Reach (g : Bit2Bits) : SigBit → SigBit → Prop := Relation.ReflTransGen (Edge g)

/-- `Route g u hs t`: `hs` lists the hops `(bit, cell)` of a walk from `u` to `t`; each
hop names the bit it leaves and the cell labelling the edge it takes. -/
inductive Route (g : Bit2Bits) : SigBit → List (SigBit × Cell) → SigBit → Prop
  | nil (t : SigBit) : Route g t [] t
  | cons {u v : SigBit} {c : Cell} {hs : List (SigBit × Cell)} {t : SigBit} :
      (v, c) ∈ succs g u → Route g v hs t → Route g u ((u, c) :: hs) t

/-- Lines 63-65 of `dfs`: the source bit is pushed each time it is entered. -/
def enter (w : LtpWorker) (cur : SigBit) (st : LtpState) : LtpState :=
  if cur = w.from_bit then { st with path := st.path ++ [cur] } else st

/-- Line 77 of `dfs`: the frame joins the busy set. -/
def descend (w : LtpWorker) (cur : SigBit) (st : LtpState) : LtpState :=
  { busy := cur :: st.busy, path := (enter w cur st).path,
    path_with_cells := st.path_with_cells }

/-- Lines 67-71 of `dfs`: the target is pushed. -/
def arrive (w : LtpWorker) (cur : SigBit) (st : LtpState) : LtpState :=
  { busy := st.busy, path := (enter w cur st).path ++ [cur],
    path_with_cells := st.path_with_cells }

/-- Lines 92-96 of `dfs`: the frame pushes itself and leaves the busy set. -/
def leave (w : LtpWorker) (cur : SigBit) (pe : Bool) (st3 : LtpState) : LtpState :=
  { busy := st3.busy.erase cur,
    path := if w.to_bit = none ∨ pe = true then st3.path ++ [cur] else st3.path,
    path_with_cells := st3.path_with_cells }

/-- Number of keys of the adjacency map that are not busy: the recursion measure. -/
def free (g : Bit2Bits) (busy : List SigBit) : Nat :=
  ((g.map Prod.fst).toFinset \ busy.toFinset).card

/-- Effect of one call `dfs(cur)` in targeted mode.  `L` collects the pushes made by
re-entering the source deeper in the call; on success `hs` is the route found. -/
def TargetedSpec (w : LtpWorker) (t cur : SigBit) (st : LtpState) (b : Bool)
    (st' : LtpState) : Prop :=
  ∃ L : List SigBit, (∀ x ∈ L, x = w.from_bit) ∧
    (L ≠ [] → Relation.TransGen (Edge w.bit2bits) cur w.from_bit) ∧
    (b = false → st'.path = (enter w cur st).path ++ L ∧
      st'.path_with_cells = st.path_with_cells) ∧
    (b = true → ∃ hs, Route w.bit2bits cur hs t ∧
      st'.path = (enter w cur st).path ++ L ++ t :: (hs.map Prod.fst).reverse ∧
      st'.path_with_cells = st.path_with_cells ++ hs.reverse)

/-- No bit lies on a cycle of one or more edges. -/
def Acyclic (g : Bit2Bits) : Prop := ∀ v, ¬ Relation.TransGen (Edge g) v v

/-- Invariant of `topological_sort`: `processed` and `topo_order` hold the same bits,
processed bits are visited, no bit is listed twice, and every successor of a listed bit
is listed before it. -/
def TopoInv (g : Bit2Bits) (st : TopoState) : Prop :=
  (∀ x, x ∈ st.processed ↔ x ∈ st.topo_order) ∧
  (∀ x ∈ st.processed, x ∈ st.visited) ∧
  st.topo_order.Nodup ∧
  (∀ u ∈ st.topo_order, ∀ v, Edge g u v →
    v ∈ st.topo_order ∧ st.topo_order.indexOf v < st.topo_order.indexOf u)

/-- How a returning call changes the state: the three collections only grow, whatever
was newly visited has been processed, and whatever was newly processed had not been
visited before. -/
def TopoStep (st st' : TopoState) : Prop :=
  (∃ ext, st'.topo_order = st.topo_order ++ ext) ∧
  (∀ x ∈ st.visited, x ∈ st'.visited) ∧
  (∀ x ∈ st.processed, x ∈ st'.processed) ∧
  (∀ x ∈ st'.visited, x ∈ st.visited ∨ x ∈ st'.processed) ∧
  (∀ x ∈ st'.processed, x ∈ st.processed ∨ x ∉ st.visited)

/-- Effect of one call `dfs(cur)` in open mode: it fails, leaves `path_with_cells`
alone and appends to `path` a list `P` of bits reachable from `cur` that holds every bit
reachable from `cur` along a route avoiding the busy bits. -/
def OpenSpec (w : LtpWorker) (cur : SigBit) (st : LtpState) (b : Bool) (st' : LtpState) :
    Prop :=
  b = false ∧ st'.path_with_cells = st.path_with_cells ∧
  ∃ P : List SigBit, st'.path = (enter w cur st).path ++ P ∧
    (∀ x ∈ P, Reach w.bit2bits cur x) ∧
    (∀ hs t, Route w.bit2bits cur hs t → (∀ x ∈ hs.map Prod.fst ++ [t], x ∉ st.busy) →
      t ∈ P)

/-- A diamond: `0 → 1 → 3` and `0 → 2 → 3`. -/
def diamond : Bit2Bits := [(0, [(1, 10), (2, 11)]), (1, [(3, 12)]), (2, [(3, 13)])]

/-- Effect of a call `dfs(v)` in open mode below the source, where no bit reachable from
the source has more than one outgoing edge: a busy bit pushes only the source re-entry; otherwise the
call appends the chain it walked, reversed, preceded by the source when the chain's
last bit leads back to the source. -/
def ChainSpec (w : LtpWorker) (v : SigBit) (st st' : LtpState) : Prop :=
  (v ∈ st.busy ∧ st'.path = st.path ++ (if v = w.from_bit then [v] else [])) ∨
  (v ∉ st.busy ∧ ∃ ch X : List SigBit, ch.head? = some v ∧ List.Chain' (Edge w.bit2bits) ch ∧
    st'.path = st.path ++ X ++ ch.reverse ∧
    (X = [] ∨ (X = [w.from_bit] ∧ ∃ last, ch.getLast? = some last ∧
      Edge w.bit2bits last w.from_bit)))

/-! ## The graph builder of the constructors -/

/-- One entry of `cell->connections()` as the constructor reads it: the bits of
`conn.second` and the values of `cell->input(conn.first)`, `cell->output(conn.first)`. -/
structure Conn where
  sig : List SigBit
  input : Bool
  output : Bool

/-- A cell of the module: its identity (the `Cell *` stored as edge label) and its
connections in iteration order. -/
structure CellDecl where
  cell : Cell
  connections : List Conn

/-- The call `pool.insert(b)`. -/
def poolInsert (p : List SigBit) (b : SigBit) : List SigBit :=
  if b ∈ p then p else p ++ [b]

/-- The loop `for (auto bit : sigmap(conn.second))` (lines 40-45) for one connection,
on the pair `(src_bits, dst_bits)`. -/
def connBits (sigmap : SigBit → SigBit) (acc : List SigBit × List SigBit) (conn : Conn) :
    List SigBit × List SigBit :=
  conn.sig.foldl (fun a bit =>
    (if conn.input then poolInsert a.1 (sigmap bit) else a.1,
     if conn.output then poolInsert a.2 (sigmap bit) else a.2)) acc

/-- The loop `for (auto &conn : cell->connections())` (lines 39-46): the pools
`src_bits` and `dst_bits` of one cell. -/
def cellBits (sigmap : SigBit → SigBit) (c : CellDecl) : List SigBit × List SigBit :=
  c.connections.foldl (connBits sigmap) ([], [])

/-- The assignment `m[d] = c` on an inner dict. -/
def dictSet : List (SigBit × Cell) → SigBit → Cell → List (SigBit × Cell)
  | [], d, c => [(d, c)]
  | (k, v) :: rest, d, c => if k = d then (k, c) :: rest else (k, v) :: dictSet rest d c

/-- The assignment `bit2bits[s][d] = c` (line 50). -/
def bit2bitsSet : Bit2Bits → SigBit → SigBit → Cell → Bit2Bits
  | [], s, d, c => [(s, [(d, c)])]
  | (k, m) :: rest, s, d, c =>
    if k = s then (k, dictSet m d c) :: rest else (k, m) :: bit2bitsSet rest s d c

/-- The loops `for (auto s : src_bits) for (auto d : dst_bits) bit2bits[s][d] = cell`
(lines 48-52). -/
def addEdges (src dst : List SigBit) (c : Cell) (g : Bit2Bits) : Bit2Bits :=
  src.foldl (fun g1 s => dst.foldl (fun g2 d => bit2bitsSet g2 s d c) g1) g

/-- The body of the loop `for (auto cell : module->cells())` (lines 36-53). -/
def addCell (sigmap : SigBit → SigBit) (g : Bit2Bits) (c : CellDecl) : Bit2Bits :=
  addEdges (cellBits sigmap c).1 (cellBits sigmap c).2 c.cell g

/-- The adjacency map the constructor builds from the cells of the module. -/
def buildBit2Bits (sigmap : SigBit → SigBit) (cells : List CellDecl) : Bit2Bits :=
  cells.foldl (addCell sigmap) []

/-- The value of `bit2bits[s][d]`, when `bit2bits.count(s)` and `bit2bits.at(s).count(d)`. -/
def label (g : Bit2Bits) (s d : SigBit) : Option Cell :=
  ((succs g s).find? (fun e => decide (e.1 = d))).map Prod.snd

/-- `s` is the canonical bit of some bit on an input connection of the cell. -/
def IsInput (sigmap : SigBit → SigBit) (c : CellDecl) (s : SigBit) : Prop :=
  ∃ conn ∈ c.connections, conn.input = true ∧ ∃ bit ∈ conn.sig, sigmap bit = s

/-- `d` is the canonical bit of some bit on an output connection of the cell. -/
def IsOutput (sigmap : SigBit → SigBit) (c : CellDecl) (d : SigBit) : Prop :=
  ∃ conn ∈ c.connections, conn.output = true ∧ ∃ bit ∈ conn.sig, sigmap bit = d

/-- The module of the end-to-end example: cell `E = 10` with input `A = 0` and output
`B = 1`, cell `F = 11` with input `B = 1` and output `C = 2`. -/
def moduleABC : List CellDecl :=
  [⟨10, [⟨[0], true, false⟩, ⟨[1], false, true⟩]⟩,
   ⟨11, [⟨[1], true, false⟩, ⟨[2], false, true⟩]⟩]

/-- Every inner dict has each key once. -/
def KeysNodup (g : Bit2Bits) : Prop := ∀ s, ((succs g s).map Prod.fst).Nodup

/-! ## Routes and reachability -/

theorem succs_mem_keys {g : Bit2Bits} {u : SigBit} {e : SigBit × Cell}
    (h : e ∈ succs g u) : u ∈ g.map Prod.fst := by
  induction g with
  | nil => simp [succs] at h
  | cons kv rest ih =>
    obtain ⟨k, m⟩ := kv
    by_cases hk : k = u
    · simp [hk]
    · simp only [succs, if_neg hk] at h
      simp [ih h]

theorem Route.reach {g : Bit2Bits} {u t : SigBit} {hs : List (SigBit × Cell)}
    (h : Route g u hs t) : Reach g u t := by
  induction h with
  | nil t => exact Relation.ReflTransGen.refl
  | cons hmem _ ih => exact Relation.ReflTransGen.head ⟨_, hmem⟩ ih

theorem Reach.exists_route {g : Bit2Bits} {u t : SigBit} (h : Reach g u t) :
    ∃ hs, Route g u hs t := by
  induction h using Relation.ReflTransGen.head_induction_on with
  | refl => exact ⟨[], Route.nil t⟩
  | head hab _ ih =>
    obtain ⟨c, hc⟩ := hab
    obtain ⟨hs, hr⟩ := ih
    exact ⟨_, Route.cons hc hr⟩

/-- Every bit a route leaves has, further along the route, a last visit. -/
theorem Route.last_visit {g : Bit2Bits} {u t : SigBit} {hs : List (SigBit × Cell)}
    (h : Route g u hs t) :
    ∀ x ∈ hs.map Prod.fst, ∃ c hs', Route g x ((x, c) :: hs') t ∧ x ∉ hs'.map Prod.fst ∧
      ∀ y ∈ hs'.map Prod.fst, y ∈ hs.map Prod.fst := by
  induction h with
  | nil t => intro x hx; simp at hx
  | @cons u v c hs t hmem hr ih =>
    intro x hx
    by_cases hxt : x ∈ hs.map Prod.fst
    · obtain ⟨c', hs', h1, h2, h3⟩ := ih x hxt
      exact ⟨c', hs', h1, h2, fun y hy => List.mem_cons_of_mem _ (h3 y hy)⟩
    · have hxu : x = u := by
        simp only [List.map_cons, List.mem_cons] at hx
        rcases hx with hx | hx
        · exact hx
        · exact absurd hx hxt
      subst hxu
      exact ⟨c, hs, Route.cons hmem hr, hxt, fun y hy => List.mem_cons_of_mem _ hy⟩

/-! ## `LtpWorker::dfs`: the busy set is restored -/

theorem dfsLoop_busy {rec : SigBit → LtpState → Option (Bool × LtpState)} {tg : Bool}
    {cur : SigBit}
    (hrec : ∀ n s b s', rec n s = some (b, s') → s'.busy = s.busy) :
    ∀ (l : List (SigBit × Cell)) (pe : Bool) (st : LtpState) (b : Bool) (st' : LtpState),
      dfsLoop rec tg cur l pe st = some (b, st') → st'.busy = st.busy := by
  intro l
  induction l with
  | nil =>
    intro pe st b st' h
    simp only [dfsLoop, Option.some.injEq, Prod.mk.injEq] at h
    rw [← h.2]
  | cons it rest ih =>
    intro pe st b st' h
    simp only [dfsLoop] at h
    cases hr : rec it.1 st with
    | none => simp [hr] at h
    | some r =>
      obtain ⟨rb, st1⟩ := r
      have hb := hrec _ _ _ _ hr
      cases rb with
      | true =>
        simp only [hr] at h
        cases tg with
        | true =>
          simp only [if_true, Option.some.injEq, Prod.mk.injEq] at h
          rw [← h.2]; exact hb
        | false =>
          simp only [Bool.false_eq_true, if_false] at h
          rw [ih _ _ _ _ h]; exact hb
      | false =>
        simp only [hr] at h
        rw [ih _ _ _ _ h]; exact hb

@[simp] theorem enter_busy (w : LtpWorker) (cur : SigBit) (st : LtpState) :
    (enter w cur st).busy = st.busy := by
  unfold enter; split <;> rfl

@[simp] theorem enter_pwc (w : LtpWorker) (cur : SigBit) (st : LtpState) :
    (enter w cur st).path_with_cells = st.path_with_cells := by
  unfold enter; split <;> rfl

theorem enter_path (w : LtpWorker) (cur : SigBit) (st : LtpState) :
    (enter w cur st).path = st.path ++ (if cur = w.from_bit then [cur] else []) := by
  unfold enter; split <;> simp

theorem dfs_succ (w : LtpWorker) (fuel : Nat) (cur : SigBit) (st : LtpState) :
    dfs w (fuel + 1) cur st =
      if w.to_bit = some cur then
        some (true, (arrive w cur st))
      else if cur ∈ st.busy then some (false, enter w cur st)
      else
        match dfsLoop (dfs w fuel) w.to_bit.isSome cur (succs w.bit2bits cur) false
            (descend w cur st) with
        | none => none
        | some (pe, st3) => some (pe, leave w cur pe st3) := by
  simp only [dfs, enter, leave, descend, arrive]
  by_cases h1 : w.to_bit = some cur
  · simp only [h1, if_true]
    split <;> rfl
  · simp only [h1, if_false]
    by_cases h2 : cur = w.from_bit
    · simp only [h2, if_true]
      by_cases h3 : w.from_bit ∈ st.busy
      · simp only [h3, if_true]
      · simp only [h3, if_false]
        split <;> rename_i hh
        · rfl
        · rename_i pe st3
          congr 2
          split <;> rfl
    · simp only [h2, if_false]
      by_cases h3 : cur ∈ st.busy
      · simp only [h3, if_true]
      · simp only [h3, if_false]
        split <;> rename_i hh
        · rfl
        · rename_i pe st3
          congr 2
          split <;> rfl

/-- Case analysis of one call of `dfs` that returned. -/
theorem dfs_cases {w : LtpWorker} {fuel : Nat} {cur : SigBit} {st : LtpState} {b : Bool}
    {st' : LtpState} (h : dfs w (fuel + 1) cur st = some (b, st')) :
    (w.to_bit = some cur ∧ b = true ∧
        st' = (arrive w cur st)) ∨
    (w.to_bit ≠ some cur ∧ cur ∈ st.busy ∧ b = false ∧ st' = enter w cur st) ∨
    (w.to_bit ≠ some cur ∧ cur ∉ st.busy ∧ ∃ st3,
        dfsLoop (dfs w fuel) w.to_bit.isSome cur (succs w.bit2bits cur) false
          (descend w cur st) = some (b, st3) ∧
        st' = leave w cur b st3) := by
  rw [dfs_succ] at h
  by_cases h1 : w.to_bit = some cur
  · simp only [h1, if_true, Option.some.injEq, Prod.mk.injEq] at h
    exact Or.inl ⟨h1, h.1.symm, h.2.symm⟩
  · simp only [h1, if_false] at h
    by_cases h2 : cur ∈ st.busy
    · simp only [h2, if_true, Option.some.injEq, Prod.mk.injEq] at h
      exact Or.inr (Or.inl ⟨h1, h2, h.1.symm, h.2.symm⟩)
    · simp only [h2, if_false] at h
      refine Or.inr (Or.inr ⟨h1, h2, ?_⟩)
      cases hl : dfsLoop (dfs w fuel) w.to_bit.isSome cur (succs w.bit2bits cur) false
          (descend w cur st) with
      | none => simp [hl] at h
      | some r =>
        obtain ⟨pe, st3⟩ := r
        simp only [hl, Option.some.injEq, Prod.mk.injEq] at h
        obtain ⟨rfl, rfl⟩ := h
        exact ⟨st3, rfl, rfl⟩

theorem dfs_busy (w : LtpWorker) :
    ∀ (fuel : Nat) (cur : SigBit) (st : LtpState) (b : Bool) (st' : LtpState),
      dfs w fuel cur st = some (b, st') → st'.busy = st.busy := by
  intro fuel
  induction fuel with
  | zero => intro cur st b st' h; simp [dfs] at h
  | succ n ih =>
    intro cur st b st' h
    rcases dfs_cases h with ⟨_, _, rfl⟩ | ⟨_, _, _, rfl⟩ | ⟨_, _, st3, hl, rfl⟩
    · simp [arrive]
    · simp
    · have hb := dfsLoop_busy ih _ _ _ _ _ hl
      simp [leave, hb, descend]

/-! ## `LtpWorker::dfs` terminates -/

theorem free_le_length (g : Bit2Bits) (busy : List SigBit) : free g busy ≤ g.length := by
  unfold free
  calc ((g.map Prod.fst).toFinset \ busy.toFinset).card
      ≤ (g.map Prod.fst).toFinset.card := Finset.card_le_card Finset.sdiff_subset
    _ ≤ (g.map Prod.fst).length := List.toFinset_card_le _
    _ = g.length := List.length_map _ _

theorem free_cons_lt {g : Bit2Bits} {busy : List SigBit} {cur : SigBit}
    (hk : cur ∈ g.map Prod.fst) (hb : cur ∉ busy) : free g (cur :: busy) < free g busy := by
  unfold free
  apply Finset.card_lt_card
  rw [Finset.ssubset_iff_of_subset]
  · refine ⟨cur, ?_, ?_⟩
    · simp only [Finset.mem_sdiff, List.mem_toFinset]
      exact ⟨hk, hb⟩
    · simp
  · intro x hx
    simp only [Finset.mem_sdiff, List.mem_toFinset, List.mem_cons, not_or] at hx ⊢
    exact ⟨hx.1, hx.2.2⟩

theorem dfsLoop_isSome {rec : SigBit → LtpState → Option (Bool × LtpState)} {tg : Bool}
    {cur : SigBit} (B : List SigBit)
    (hbusy : ∀ n s b s', rec n s = some (b, s') → s'.busy = s.busy)
    (hsome : ∀ n s, s.busy = B → (rec n s).isSome = true) :
    ∀ (l : List (SigBit × Cell)) (pe : Bool) (st : LtpState), st.busy = B →
      (dfsLoop rec tg cur l pe st).isSome = true := by
  intro l
  induction l with
  | nil => intro pe st _; simp [dfsLoop]
  | cons it rest ih =>
    intro pe st hB
    simp only [dfsLoop]
    have hs := hsome it.1 st hB
    cases hr : rec it.1 st with
    | none => simp [hr] at hs
    | some r =>
      obtain ⟨rb, st1⟩ := r
      have hb : st1.busy = B := by rw [hbusy _ _ _ _ hr, hB]
      cases rb with
      | true =>
        cases tg with
        | true => simp
        | false => simpa using ih true ⟨st1.busy, st1.path, st1.path_with_cells ++ [(cur, it.2)]⟩ hb
      | false => simpa using ih pe _ hb

/-- With more fuel than there are non-busy keys, `dfs` returns. -/
theorem dfs_isSome (w : LtpWorker) :
    ∀ (fuel : Nat) (cur : SigBit) (st : LtpState), free w.bit2bits st.busy < fuel →
      (dfs w fuel cur st).isSome = true := by
  intro fuel
  induction fuel with
  | zero => intro cur st h; exact absurd h (Nat.not_lt_zero _)
  | succ n ih =>
    intro cur st hfuel
    rw [dfs_succ]
    by_cases h1 : w.to_bit = some cur
    · simp [h1]
    · simp only [h1, if_false]
      by_cases h2 : cur ∈ st.busy
      · simp [h2]
      · simp only [h2, if_false]
        have hloop : (dfsLoop (dfs w n) w.to_bit.isSome cur (succs w.bit2bits cur) false
            (descend w cur st)).isSome = true := by
          cases hs : succs w.bit2bits cur with
          | nil => simp [dfsLoop]
          | cons e rest =>
            have hk : cur ∈ w.bit2bits.map Prod.fst :=
              succs_mem_keys (e := e) (by rw [hs]; exact List.mem_cons_self _ _)
            have hlt := free_cons_lt hk h2
            rw [← hs]
            refine dfsLoop_isSome (cur :: st.busy) (dfs_busy w n) ?_ _ _ _ rfl
            intro nxt s hsB
            apply ih
            rw [hsB]
            omega
        cases hl : dfsLoop (dfs w n) w.to_bit.isSome cur (succs w.bit2bits cur) false
            (descend w cur st) with
        | none => simp [hl] at hloop
        | some r => simp

theorem dfsLoop_mono {rec rec' : SigBit → LtpState → Option (Bool × LtpState)} {tg : Bool}
    {cur : SigBit} (hrec : ∀ n s r, rec n s = some r → rec' n s = some r) :
    ∀ (l : List (SigBit × Cell)) (pe : Bool) (st : LtpState) (r : Bool × LtpState),
      dfsLoop rec tg cur l pe st = some r → dfsLoop rec' tg cur l pe st = some r := by
  intro l
  induction l with
  | nil => intro pe st r h; simpa [dfsLoop] using h
  | cons it rest ih =>
    intro pe st r h
    simp only [dfsLoop] at h ⊢
    cases hr : rec it.1 st with
    | none => simp [hr] at h
    | some q =>
      obtain ⟨rb, st1⟩ := q
      rw [hrec _ _ _ hr]
      cases rb with
      | true =>
        simp only [hr] at h
        cases tg with
        | true => simpa using h
        | false =>
          simp only [Bool.false_eq_true, if_false] at h ⊢
          exact ih _ _ _ h
      | false =>
        simp only [hr] at h
        exact ih _ _ _ h

/-- More fuel never changes a result. -/
theorem dfs_mono (w : LtpWorker) :
    ∀ (fuel : Nat) (cur : SigBit) (st : LtpState) (r : Bool × LtpState),
      dfs w fuel cur st = some r → dfs w (fuel + 1) cur st = some r := by
  intro fuel
  induction fuel with
  | zero => intro cur st r h; simp [dfs] at h
  | succ n ih =>
    intro cur st r h
    rw [dfs_succ] at h ⊢
    by_cases h1 : w.to_bit = some cur
    · simpa [h1] using h
    · simp only [h1, if_false] at h ⊢
      by_cases h2 : cur ∈ st.busy
      · simpa [h2] using h
      · simp only [h2, if_false] at h ⊢
        cases hl : dfsLoop (dfs w n) w.to_bit.isSome cur (succs w.bit2bits cur) false
            (descend w cur st) with
        | none => simp [hl] at h
        | some q =>
          rw [dfsLoop_mono ih _ _ _ _ hl]
          simpa [hl] using h

theorem dfs_mono_le (w : LtpWorker) {fuel fuel' : Nat} (hle : fuel ≤ fuel') {cur : SigBit}
    {st : LtpState} {r : Bool × LtpState} (h : dfs w fuel cur st = some r) :
    dfs w fuel' cur st = some r := by
  induction hle with
  | refl => exact h
  | step _ ih => exact dfs_mono w _ _ _ _ ih

/-! ## Targeted search: what a call of `dfs` leaves behind -/

theorem dfsLoop_targeted {w : LtpWorker} {t cur : SigBit}
    {rec : SigBit → LtpState → Option (Bool × LtpState)}
    (hrec : ∀ n s b s', rec n s = some (b, s') → TargetedSpec w t n s b s') :
    ∀ (l : List (SigBit × Cell)) (st : LtpState) (b : Bool) (st' : LtpState),
      dfsLoop rec true cur l false st = some (b, st') →
      ∃ L : List SigBit, (∀ x ∈ L, x = w.from_bit) ∧
        (L ≠ [] → ∃ e ∈ l, Reach w.bit2bits e.1 w.from_bit) ∧
        (b = false → st'.path = st.path ++ L ∧ st'.path_with_cells = st.path_with_cells) ∧
        (b = true → ∃ e ∈ l, ∃ hs, Route w.bit2bits e.1 hs t ∧
          st'.path = st.path ++ L ++ t :: (hs.map Prod.fst).reverse ∧
          st'.path_with_cells = st.path_with_cells ++ hs.reverse ++ [(cur, e.2)]) := by
  intro l
  induction l with
  | nil =>
    intro st b st' h
    simp only [dfsLoop, Option.some.injEq, Prod.mk.injEq] at h
    obtain ⟨rfl, rfl⟩ := h
    exact ⟨[], by simp, by simp, by simp, by simp⟩
  | cons it rest ih =>
    intro st b st' h
    simp only [dfsLoop] at h
    cases hr : rec it.1 st with
    | none => simp [hr] at h
    | some r =>
      obtain ⟨rb, st1⟩ := r
      obtain ⟨Lc, hLc, hLcne, hfalse, htrue⟩ := hrec _ _ _ _ hr
      have hE : ∀ x ∈ (if it.1 = w.from_bit then [it.1] else []) ++ Lc, x = w.from_bit := by
        intro x hx
        rcases List.mem_append.1 hx with hx | hx
        · by_cases hc : it.1 = w.from_bit
          · simp only [hc, if_true, List.mem_singleton] at hx; exact hx
          · simp [hc] at hx
        · exact hLc x hx
      have hEne : (if it.1 = w.from_bit then [it.1] else []) ++ Lc ≠ [] →
          Reach w.bit2bits it.1 w.from_bit := by
        intro hne
        by_cases hc : it.1 = w.from_bit
        · rw [hc]; exact Relation.ReflTransGen.refl
        · simp only [hc, if_false, List.nil_append] at hne
          exact (hLcne hne).to_reflTransGen
      cases rb with
      | true =>
        simp only [hr, if_true, Option.some.injEq, Prod.mk.injEq] at h
        obtain ⟨rfl, rfl⟩ := h
        obtain ⟨hs, hroute, hp, hc⟩ := htrue rfl
        refine ⟨(if it.1 = w.from_bit then [it.1] else []) ++ Lc, hE, ?_, by simp, ?_⟩
        · intro hne
          exact ⟨it, List.mem_cons_self _ _, hEne hne⟩
        · intro _
          refine ⟨it, List.mem_cons_self _ _, hs, hroute, ?_, ?_⟩
          · simp only [hp, enter_path, List.append_assoc]
          · simp only [hc]
      | false =>
        simp only [hr] at h
        obtain ⟨hp, hc⟩ := hfalse rfl
        obtain ⟨Lr, hLr, hLrne, hrf, hrt⟩ := ih _ _ _ h
        refine ⟨(if it.1 = w.from_bit then [it.1] else []) ++ Lc ++ Lr, ?_, ?_, ?_, ?_⟩
        · intro x hx
          rcases List.mem_append.1 hx with hx | hx
          · exact hE x hx
          · exact hLr x hx
        · intro hne
          by_cases hfirst : (if it.1 = w.from_bit then [it.1] else []) ++ Lc = []
          · rw [hfirst, List.nil_append] at hne
            obtain ⟨e, he, hre⟩ := hLrne hne
            exact ⟨e, List.mem_cons_of_mem _ he, hre⟩
          · exact ⟨it, List.mem_cons_self _ _, hEne hfirst⟩
        · intro hb
          obtain ⟨h1, h2⟩ := hrf hb
          refine ⟨?_, ?_⟩
          · rw [h1, hp, enter_path]; simp only [List.append_assoc]
          · rw [h2, hc]
        · intro hb
          obtain ⟨e, he, hs, hroute, h1, h2⟩ := hrt hb
          refine ⟨e, List.mem_cons_of_mem _ he, hs, hroute, ?_, ?_⟩
          · rw [h1, hp, enter_path]; simp only [List.append_assoc]
          · rw [h2, hc]

theorem dfs_targeted (w : LtpWorker) (t : SigBit) (ht : w.to_bit = some t) :
    ∀ (fuel : Nat) (cur : SigBit) (st : LtpState) (b : Bool) (st' : LtpState),
      dfs w fuel cur st = some (b, st') → TargetedSpec w t cur st b st' := by
  intro fuel
  induction fuel with
  | zero => intro cur st b st' h; simp [dfs] at h
  | succ n ih =>
    intro cur st b st' h
    rcases dfs_cases h with ⟨h1, rfl, rfl⟩ | ⟨_, _, rfl, rfl⟩ | ⟨h1, h2, st3, hl, rfl⟩
    · have hct : cur = t := by rw [ht] at h1; exact (Option.some.inj h1).symm
      subst hct
      exact ⟨[], by simp, by simp, by simp, fun _ => ⟨[], Route.nil _, by simp [arrive], by simp [arrive]⟩⟩
    · exact ⟨[], by simp, by simp, by simp, by simp⟩
    · have htg : w.to_bit.isSome = true := by rw [ht]; rfl
      rw [htg] at hl
      obtain ⟨L, hL, hLne, hf, htr⟩ := dfsLoop_targeted ih _ _ _ _ hl
      refine ⟨L, hL, ?_, ?_, ?_⟩
      · intro hne
        obtain ⟨e, he, hre⟩ := hLne hne
        exact Relation.TransGen.head' ⟨e.2, he⟩ hre
      · intro hb
        obtain ⟨hp, hc⟩ := hf hb
        subst hb
        simp only [leave, ht, hp, hc, descend]
        simp
      · intro hb
        obtain ⟨e, he, hs, hroute, hp, hc⟩ := htr hb
        subst hb
        refine ⟨(cur, e.2) :: hs, Route.cons he hroute, ?_, ?_⟩
        · simp only [leave, hp, descend]
          simp
        · simp only [leave, hc, descend]
          simp

/-- In targeted mode success means that a route exists. -/
theorem dfs_sound (w : LtpWorker) (t : SigBit) (ht : w.to_bit = some t) {fuel : Nat}
    {cur : SigBit} {st st' : LtpState} (h : dfs w fuel cur st = some (true, st')) :
    Reach w.bit2bits cur t := by
  obtain ⟨_, _, _, _, htr⟩ := dfs_targeted w t ht _ _ _ _ _ h
  obtain ⟨hs, hroute, _⟩ := htr rfl
  exact hroute.reach

/-! ## Targeted search: completeness -/

theorem dfsLoop_complete {w : LtpWorker} {t cur : SigBit} {B : List SigBit}
    {rec : SigBit → LtpState → Option (Bool × LtpState)}
    (hbusy : ∀ n s b s', rec n s = some (b, s') → s'.busy = s.busy)
    (hrec : ∀ n s b s', rec n s = some (b, s') → s.busy = B →
      (∃ hs, Route w.bit2bits n hs t ∧ ∀ x ∈ hs.map Prod.fst, x ∉ B) → b = true) :
    ∀ (l : List (SigBit × Cell)) (st : LtpState) (b : Bool) (st' : LtpState),
      dfsLoop rec true cur l false st = some (b, st') → st.busy = B →
      (∃ e ∈ l, ∃ hs, Route w.bit2bits e.1 hs t ∧ ∀ x ∈ hs.map Prod.fst, x ∉ B) →
      b = true := by
  intro l
  induction l with
  | nil => intro st b st' _ _ hex; obtain ⟨e, he, _⟩ := hex; simp at he
  | cons it rest ih =>
    intro st b st' h hB hex
    simp only [dfsLoop] at h
    cases hr : rec it.1 st with
    | none => simp [hr] at h
    | some r =>
      obtain ⟨rb, st1⟩ := r
      cases rb with
      | true =>
        simp only [hr, if_true, Option.some.injEq, Prod.mk.injEq] at h
        exact h.1.symm
      | false =>
        simp only [hr] at h
        have hb1 : st1.busy = B := by rw [hbusy _ _ _ _ hr, hB]
        apply ih _ _ _ h hb1
        obtain ⟨e, he, hs, hroute, hav⟩ := hex
        rcases List.mem_cons.1 he with rfl | he
        · have := hrec _ _ _ _ hr hB ⟨hs, hroute, hav⟩
          simp at this
        · exact ⟨e, he, hs, hroute, hav⟩

/-- In targeted mode a route that avoids the busy bits makes `dfs` succeed. -/
theorem dfs_complete (w : LtpWorker) (t : SigBit) (ht : w.to_bit = some t) :
    ∀ (fuel : Nat) (cur : SigBit) (st : LtpState) (b : Bool) (st' : LtpState),
      dfs w fuel cur st = some (b, st') →
      (∃ hs, Route w.bit2bits cur hs t ∧ ∀ x ∈ hs.map Prod.fst, x ∉ st.busy) → b = true := by
  intro fuel
  induction fuel with
  | zero => intro cur st b st' h; simp [dfs] at h
  | succ n ih =>
    intro cur st b st' h hex
    rcases dfs_cases h with ⟨_, rfl, _⟩ | ⟨h1, h2, _, _⟩ | ⟨h1, h2, st3, hl, _⟩
    · rfl
    · exfalso
      obtain ⟨hs, hroute, hav⟩ := hex
      cases hroute with
      | nil => exact h1 ht
      | cons hmem hr => exact hav cur (by simp) h2
    · obtain ⟨hs, hroute, hav⟩ := hex
      have hne : cur ≠ t := fun hc => h1 (by rw [ht, hc])
      have hcur : cur ∈ hs.map Prod.fst := by
        cases hroute with
        | nil => exact absurd rfl hne
        | cons hmem hr => simp
      obtain ⟨c, hs', hroute', hnot, hsub⟩ := hroute.last_visit cur hcur
      cases hroute' with
      | @cons _ v _ _ _ hmem hr =>
        have htg : w.to_bit.isSome = true := by rw [ht]; rfl
        rw [htg] at hl
        refine dfsLoop_complete (B := cur :: st.busy) (dfs_busy w n) ?_ _ _ _ _ hl rfl
          ⟨(v, c), hmem, hs', hr, ?_⟩
        · intro nxt s b' s' hcall hsB hex'
          exact ih _ _ _ _ hcall (by rw [hsB]; exact hex')
        · intro x hx
          simp only [List.mem_cons, not_or]
          refine ⟨?_, hav x (hsub x hx)⟩
          rintro rfl
          exact hnot hx

/-! ## `LtpWorker::run` -/

theorem run_of_dfs {w : LtpWorker} {fuel : Nat} {b : Bool} {st : LtpState}
    (h : dfs w fuel w.from_bit LtpState.init = some (b, st)) :
    ∃ r, run w fuel = some r ∧ r.path_found = b ∧
      r.st.path_with_cells = st.path_with_cells ∧ r.st.busy = st.busy := by
  unfold run
  simp only [h]
  split
  · exact ⟨_, rfl, rfl, rfl, rfl⟩
  · split
    · exact ⟨_, rfl, rfl, rfl, rfl⟩
    · exact ⟨_, rfl, rfl, rfl, rfl⟩

theorem range_map_getD_eq_take (l : List SigBit) (d : SigBit) :
    ∀ n, n ≤ l.length → (List.range n).map (fun i => l.getD i d) = l.take n := by
  intro n hn
  apply List.ext_getElem
  · simp [hn]
  · intro i h1 h2
    simp only [List.length_map, List.length_range] at h1
    simp only [List.getElem_map, List.getElem_range, List.getElem_take]
    rw [List.getD_eq_getElem _ _ (by omega)]

/-- The bits `run` prints when the search leaves `path` non-empty: the reversed path,
without its last element when that repeats the first one. -/
theorem run_bits {w : LtpWorker} {fuel : Nat} {b : Bool} {st : LtpState}
    (h : dfs w fuel w.from_bit LtpState.init = some (b, st)) (hne : st.path ≠ []) :
    ∃ r, run w fuel = some r ∧ r.path_found = b ∧
      r.report.bits = st.path.reverse.take
        (if st.path.reverse.head? = st.path.reverse.getLast? ∧ st.path.reverse.length > 1
          then st.path.reverse.length - 1 else st.path.reverse.length) := by
  unfold run
  simp only [h, hne, ne_eq, not_false_eq_true, if_true]
  refine ⟨_, rfl, rfl, ?_⟩
  simp only [Report.bits, List.map_map]
  rw [← range_map_getD_eq_take _ 0]
  · rfl
  · split <;> omega

/-- A route starts at its first hop. -/
theorem Route.head_bits {g : Bit2Bits} {u t : SigBit} {hs : List (SigBit × Cell)}
    (h : Route g u hs t) : (hs.map Prod.fst ++ [t]).head? = some u := by
  cases h with
  | nil => rfl
  | cons _ _ => rfl

/-- Targeted search from a source that lies on no cycle: the printed bits are a route
from the source to the target, and `path_with_cells` holds its hops, last hop first. -/
theorem run_targeted_acyclic_source (w : LtpWorker) (t : SigBit) (ht : w.to_bit = some t)
    (hcyc : ¬ Relation.TransGen (Edge w.bit2bits) w.from_bit w.from_bit)
    {fuel : Nat} {st : LtpState}
    (h : dfs w fuel w.from_bit LtpState.init = some (true, st)) :
    ∃ r hs, run w fuel = some r ∧ r.path_found = true ∧
      Route w.bit2bits w.from_bit hs t ∧
      r.report.bits = hs.map Prod.fst ++ [t] ∧
      st.path_with_cells = hs.reverse := by
  obtain ⟨L, _, hLne, _, htr⟩ := dfs_targeted w t ht _ _ _ _ _ h
  have hL : L = [] := by
    by_contra hne
    exact hcyc (hLne hne)
  subst hL
  obtain ⟨hs, hroute, hp, hc⟩ := htr rfl
  have hpath : st.path = w.from_bit :: t :: (hs.map Prod.fst).reverse := by
    rw [hp, enter_path]; simp [LtpState.init]
  have hrev : st.path.reverse = (hs.map Prod.fst ++ [t]) ++ [w.from_bit] := by
    rw [hpath]; simp
  obtain ⟨r, hrun, hfound, hbits⟩ := run_bits h (by rw [hpath]; simp)
  refine ⟨r, hs, hrun, hfound, hroute, ?_, ?_⟩
  · rw [hbits, hrev]
    have hhead : ((hs.map Prod.fst ++ [t]) ++ [w.from_bit]).head? = some w.from_bit := by
      rw [List.head?_append_of_ne_nil _ (by simp)]
      exact hroute.head_bits
    have hlast : ((hs.map Prod.fst ++ [t]) ++ [w.from_bit]).getLast? = some w.from_bit := by
      simp
    rw [hhead, hlast]
    simp only [true_and, List.length_append, List.length_map, List.length_singleton,
      gt_iff_lt, Nat.lt_add_left_iff_pos, Nat.add_one_sub_one]
    rw [if_pos (by omega)]
    have hlen : hs.length + 1 = (hs.map Prod.fst ++ [t]).length := by simp
    rw [hlen, List.take_left]
  · rw [hc]; simp [LtpState.init]

/-- A set of bits closed under the edges of the graph contains everything reachable
from its members. -/
theorem reach_mem_of_closed {g : Bit2Bits} (S : List SigBit)
    (hcl : ∀ s ∈ S, ∀ e ∈ succs g s, e.1 ∈ S) {u b : SigBit} (hu : u ∈ S)
    (h : Reach g u b) : b ∈ S := by
  induction h with
  | refl => exact hu
  | tail _ hbc ih =>
    obtain ⟨c, hc⟩ := hbc
    exact hcl _ ih _ hc

/-- Targeted search from the initial state decides reachability. -/
theorem dfs_true_iff_reach (g : Bit2Bits) (src tgt : SigBit) (k : Nat) :
    ∃ b st, dfs ⟨g, src, some tgt⟩ (g.length + 1 + k) src LtpState.init = some (b, st) ∧
      (b = true ↔ Reach g src tgt) := by
  have hsome := dfs_isSome ⟨g, src, some tgt⟩ (g.length + 1 + k) src LtpState.init
    (by have := free_le_length g LtpState.init.busy; simp only at this ⊢; omega)
  cases hd : dfs ⟨g, src, some tgt⟩ (g.length + 1 + k) src LtpState.init with
  | none => simp [hd] at hsome
  | some r =>
    obtain ⟨b, st⟩ := r
    refine ⟨b, st, rfl, ?_, ?_⟩
    · rintro rfl
      exact dfs_sound ⟨g, src, some tgt⟩ tgt rfl hd
    · intro hreach
      obtain ⟨hs, hroute⟩ := hreach.exists_route
      exact dfs_complete ⟨g, src, some tgt⟩ tgt rfl _ _ _ _ _ hd
        ⟨hs, hroute, by simp [LtpState.init]⟩

/-- Every bit listed by a route reaches the route's end. -/
theorem Route.reach_of_mem {g : Bit2Bits} {u t : SigBit} {hs : List (SigBit × Cell)}
    (h : Route g u hs t) : ∀ {b : SigBit}, b ∈ hs.map Prod.fst ++ [t] → Reach g b t := by
  induction h with
  | nil t =>
    intro b hb
    simp only [List.map_nil, List.nil_append, List.mem_singleton] at hb
    rw [hb]; exact Relation.ReflTransGen.refl
  | @cons u v c hs t hmem hr ih =>
    intro b hb
    simp only [List.map_cons, List.cons_append, List.mem_cons] at hb
    rcases hb with rfl | hb
    · exact (Route.cons hmem hr).reach
    · exact ih hb

/-! ## Topological orderer: the invariant -/

theorem TopoStep.refl (st : TopoState) : TopoStep st st :=
  ⟨⟨[], by simp⟩, fun _ h => h, fun _ h => h, fun _ h => Or.inl h, fun _ h => Or.inl h⟩

theorem TopoStep.trans {a b c : TopoState} (h1 : TopoStep a b) (h2 : TopoStep b c) :
    TopoStep a c := by
  obtain ⟨⟨e1, he1⟩, hv1, hp1, hn1, hq1⟩ := h1
  obtain ⟨⟨e2, he2⟩, hv2, hp2, hn2, hq2⟩ := h2
  refine ⟨⟨e1 ++ e2, by rw [he2, he1, List.append_assoc]⟩, fun x hx => hv2 x (hv1 x hx),
    fun x hx => hp2 x (hp1 x hx), ?_, ?_⟩
  · intro x hx
    rcases hn2 x hx with h | h
    · rcases hn1 x h with h' | h'
      · exact Or.inl h'
      · exact Or.inr (hp2 x h')
    · exact Or.inr h
  · intro x hx
    rcases hq2 x hx with h | h
    · exact hq1 x h
    · exact Or.inr fun hxa => h (hv1 x hxa)

theorem topoDfs_succ (g : Bit2Bits) (fuel : Nat) (bit : SigBit) (st : TopoState) :
    topoDfs g (fuel + 1) bit st =
      if bit ∈ st.processed then some (Except.ok st)
      else if bit ∈ st.visited then some (Except.error cycleError)
      else
        match topoLoop (topoDfs g fuel) ((succs g bit).map Prod.fst)
            ⟨bit :: st.visited, st.processed, st.topo_order⟩ with
        | none => none
        | some (Except.error e) => some (Except.error e)
        | some (Except.ok st2) =>
          some (Except.ok ⟨st2.visited, bit :: st2.processed, st2.topo_order ++ [bit]⟩) := by
  rfl

/-- Case analysis of a call of the sorting `dfs` that returned normally. -/
theorem topoDfs_ok_cases {g : Bit2Bits} {fuel : Nat} {bit : SigBit} {st st' : TopoState}
    (h : topoDfs g (fuel + 1) bit st = some (Except.ok st')) :
    (bit ∈ st.processed ∧ st' = st) ∨
    (bit ∉ st.processed ∧ bit ∉ st.visited ∧ ∃ st2,
      topoLoop (topoDfs g fuel) ((succs g bit).map Prod.fst)
        ⟨bit :: st.visited, st.processed, st.topo_order⟩ = some (Except.ok st2) ∧
      st' = ⟨st2.visited, bit :: st2.processed, st2.topo_order ++ [bit]⟩) := by
  rw [topoDfs_succ] at h
  by_cases h1 : bit ∈ st.processed
  · simp only [h1, if_true, Option.some.injEq, Except.ok.injEq] at h
    exact Or.inl ⟨h1, h.symm⟩
  · simp only [h1, if_false] at h
    by_cases h2 : bit ∈ st.visited
    · simp [h2] at h
    · simp only [h2, if_false] at h
      refine Or.inr ⟨h1, h2, ?_⟩
      cases hl : topoLoop (topoDfs g fuel) ((succs g bit).map Prod.fst)
          ⟨bit :: st.visited, st.processed, st.topo_order⟩ with
      | none => simp [hl] at h
      | some r =>
        cases r with
        | error e => simp [hl] at h
        | ok st2 =>
          simp only [hl, Option.some.injEq, Except.ok.injEq] at h
          exact ⟨st2, rfl, h.symm⟩

theorem topoLoop_ok {g : Bit2Bits} {rec : SigBit → TopoState → Option (Except String TopoState)}
    (hrec : ∀ b s s', TopoInv g s → rec b s = some (Except.ok s') →
      TopoInv g s' ∧ TopoStep s s' ∧ b ∈ s'.processed) :
    ∀ (l : List SigBit) (st st' : TopoState), TopoInv g st →
      topoLoop rec l st = some (Except.ok st') →
      TopoInv g st' ∧ TopoStep st st' ∧ ∀ b ∈ l, b ∈ st'.processed := by
  intro l
  induction l with
  | nil =>
    intro st st' hinv h
    simp only [topoLoop, Option.some.injEq, Except.ok.injEq] at h
    subst h
    exact ⟨hinv, TopoStep.refl _, by simp⟩
  | cons b rest ih =>
    intro st st' hinv h
    simp only [topoLoop] at h
    cases hr : rec b st with
    | none => simp [hr] at h
    | some r =>
      cases r with
      | error e => simp [hr] at h
      | ok st1 =>
        simp only [hr] at h
        obtain ⟨hinv1, hstep1, hb1⟩ := hrec _ _ _ hinv hr
        obtain ⟨hinv', hstep', hall⟩ := ih _ _ hinv1 h
        refine ⟨hinv', hstep1.trans hstep', ?_⟩
        intro x hx
        rcases List.mem_cons.1 hx with rfl | hx
        · exact hstep'.2.2.1 _ hb1
        · exact hall x hx

/-- A returning call of the sorting `dfs` keeps the invariant and processes its bit. -/
theorem topoDfs_ok (g : Bit2Bits) :
    ∀ (fuel : Nat) (bit : SigBit) (st st' : TopoState), TopoInv g st →
      topoDfs g fuel bit st = some (Except.ok st') →
      TopoInv g st' ∧ TopoStep st st' ∧ bit ∈ st'.processed := by
  intro fuel
  induction fuel with
  | zero => intro bit st st' _ h; simp [topoDfs] at h
  | succ n ih =>
    intro bit st st' hinv h
    rcases topoDfs_ok_cases h with ⟨h1, rfl⟩ | ⟨h1, h2, st2, hl, rfl⟩
    · exact ⟨hinv, TopoStep.refl _, h1⟩
    · obtain ⟨hi1, hi2, hi3, hi4⟩ := hinv
      have hinv1 : TopoInv g ⟨bit :: st.visited, st.processed, st.topo_order⟩ :=
        ⟨hi1, fun x hx => List.mem_cons_of_mem _ (hi2 x hx), hi3, hi4⟩
      obtain ⟨⟨hj1, hj2, hj3, hj4⟩, hstep, hall⟩ := topoLoop_ok ih _ _ _ hinv1 hl
      obtain ⟨⟨ext, hext⟩, hv, hp, hn, hq⟩ := hstep
      simp only at hext hv hp hn hq
      have hbp : bit ∉ st2.processed := by
        intro hb
        rcases hq bit hb with h | h
        · exact h1 h
        · exact h (List.mem_cons_self _ _)
      have hbo : bit ∉ st2.topo_order := fun hb => hbp ((hj1 bit).2 hb)
      refine ⟨⟨?_, ?_, ?_, ?_⟩, ⟨⟨ext ++ [bit], ?_⟩, ?_, ?_, ?_, ?_⟩, ?_⟩
      · intro x
        simp only [List.mem_cons, List.mem_append, List.mem_singleton, hj1 x]
        tauto
      · intro x hx
        rcases List.mem_cons.1 hx with rfl | hx
        · exact hv _ (List.mem_cons_self _ _)
        · exact hj2 x hx
      · exact List.Nodup.append hj3 (List.nodup_singleton _)
          (by simpa using hbo)
      · intro u hu v huv
        simp only [List.mem_append, List.mem_singleton] at hu
        rcases hu with hu | rfl
        · obtain ⟨hv', hlt⟩ := hj4 u hu v huv
          refine ⟨List.mem_append_left _ hv', ?_⟩
          show List.indexOf v (st2.topo_order ++ [bit]) < List.indexOf u (st2.topo_order ++ [bit])
          rw [List.indexOf_append_of_mem hv', List.indexOf_append_of_mem hu]
          exact hlt
        · obtain ⟨c, hc⟩ := huv
          have hvp : v ∈ st2.processed :=
            hall v (List.mem_map.2 ⟨(v, c), hc, rfl⟩)
          have hvo : v ∈ st2.topo_order := (hj1 v).1 hvp
          refine ⟨List.mem_append_left _ hvo, ?_⟩
          show List.indexOf v (st2.topo_order ++ [u]) < List.indexOf u (st2.topo_order ++ [u])
          rw [List.indexOf_append_of_mem hvo, List.indexOf_append_of_not_mem hbo]
          have := List.indexOf_lt_length.2 hvo
          omega
      · show st2.topo_order ++ [bit] = st.topo_order ++ (ext ++ [bit])
        rw [hext, List.append_assoc]
      · intro x hx
        exact hv x (List.mem_cons_of_mem _ hx)
      · intro x hx
        exact List.mem_cons_of_mem _ (hp x hx)
      · intro x hx
        rcases hn x hx with h | h
        · rcases List.mem_cons.1 h with rfl | h
          · exact Or.inr (List.mem_cons_self _ _)
          · exact Or.inl h
        · exact Or.inr (List.mem_cons_of_mem _ h)
      · intro x hx
        rcases List.mem_cons.1 hx with rfl | hx
        · exact Or.inr h2
        · rcases hq x hx with h | h
          · exact Or.inl h
          · exact Or.inr fun hxv => h (List.mem_cons_of_mem _ hxv)
      · exact List.mem_cons_self _ _

/-! ## Topological orderer: termination and errors -/

theorem free_mono {g : Bit2Bits} {B B' : List SigBit} (h : ∀ x ∈ B, x ∈ B') :
    free g B' ≤ free g B := by
  unfold free
  apply Finset.card_le_card
  intro x hx
  simp only [Finset.mem_sdiff, List.mem_toFinset] at hx ⊢
  exact ⟨hx.1, fun hxB => hx.2 (h x hxB)⟩

theorem topoLoop_visited {rec : SigBit → TopoState → Option (Except String TopoState)}
    (hrec : ∀ b s s', rec b s = some (Except.ok s') → ∀ x ∈ s.visited, x ∈ s'.visited) :
    ∀ (l : List SigBit) (st st' : TopoState), topoLoop rec l st = some (Except.ok st') →
      ∀ x ∈ st.visited, x ∈ st'.visited := by
  intro l
  induction l with
  | nil =>
    intro st st' h
    simp only [topoLoop, Option.some.injEq, Except.ok.injEq] at h
    subst h; exact fun _ hx => hx
  | cons b rest ih =>
    intro st st' h x hx
    simp only [topoLoop] at h
    cases hr : rec b st with
    | none => simp [hr] at h
    | some r =>
      cases r with
      | error e => simp [hr] at h
      | ok st1 =>
        simp only [hr] at h
        exact ih _ _ h x (hrec _ _ _ hr x hx)

theorem topoDfs_visited (g : Bit2Bits) :
    ∀ (fuel : Nat) (bit : SigBit) (st st' : TopoState),
      topoDfs g fuel bit st = some (Except.ok st') → ∀ x ∈ st.visited, x ∈ st'.visited := by
  intro fuel
  induction fuel with
  | zero => intro bit st st' h; simp [topoDfs] at h
  | succ n ih =>
    intro bit st st' h x hx
    rcases topoDfs_ok_cases h with ⟨_, rfl⟩ | ⟨_, _, st2, hl, rfl⟩
    · exact hx
    · exact topoLoop_visited ih _ _ _ hl x (List.mem_cons_of_mem _ hx)

theorem topoLoop_isSome {g : Bit2Bits}
    {rec : SigBit → TopoState → Option (Except String TopoState)} (m : Nat)
    (hvis : ∀ b s s', rec b s = some (Except.ok s') → ∀ x ∈ s.visited, x ∈ s'.visited)
    (hsome : ∀ b s, free g s.visited ≤ m → (rec b s).isSome = true) :
    ∀ (l : List SigBit) (st : TopoState), free g st.visited ≤ m →
      (topoLoop rec l st).isSome = true := by
  intro l
  induction l with
  | nil => intro st _; simp [topoLoop]
  | cons b rest ih =>
    intro st hm
    simp only [topoLoop]
    have hs := hsome b st hm
    cases hr : rec b st with
    | none => simp [hr] at hs
    | some r =>
      cases r with
      | error e => simp
      | ok st1 =>
        simp only
        exact ih _ (le_trans (free_mono (hvis _ _ _ hr)) hm)

/-- With more fuel than there are unvisited keys, the sorting `dfs` returns or throws. -/
theorem topoDfs_isSome (g : Bit2Bits) :
    ∀ (fuel : Nat) (bit : SigBit) (st : TopoState), free g st.visited < fuel →
      (topoDfs g fuel bit st).isSome = true := by
  intro fuel
  induction fuel with
  | zero => intro bit st h; exact absurd h (Nat.not_lt_zero _)
  | succ n ih =>
    intro bit st hfuel
    rw [topoDfs_succ]
    by_cases h1 : bit ∈ st.processed
    · simp [h1]
    · simp only [h1, if_false]
      by_cases h2 : bit ∈ st.visited
      · simp [h2]
      · simp only [h2, if_false]
        have hloop : (topoLoop (topoDfs g n) ((succs g bit).map Prod.fst)
            ⟨bit :: st.visited, st.processed, st.topo_order⟩).isSome = true := by
          cases hs : succs g bit with
          | nil => simp [topoLoop]
          | cons e rest =>
            have hk : bit ∈ g.map Prod.fst :=
              succs_mem_keys (e := e) (by rw [hs]; exact List.mem_cons_self _ _)
            have hlt := free_cons_lt hk h2
            rw [← hs]
            refine topoLoop_isSome (g := g) (free g (bit :: st.visited)) (topoDfs_visited g n)
              ?_ _ _ (le_refl _)
            intro b s hsm
            apply ih
            omega
        cases hl : topoLoop (topoDfs g n) ((succs g bit).map Prod.fst)
            ⟨bit :: st.visited, st.processed, st.topo_order⟩ with
        | none => simp [hl] at hloop
        | some r => cases r <;> simp

theorem topoLoop_error {rec : SigBit → TopoState → Option (Except String TopoState)}
    (hrec : ∀ b s e, rec b s = some (Except.error e) → e = cycleError) :
    ∀ (l : List SigBit) (st : TopoState) (e : String),
      topoLoop rec l st = some (Except.error e) → e = cycleError := by
  intro l
  induction l with
  | nil => intro st e h; simp [topoLoop] at h
  | cons b rest ih =>
    intro st e h
    simp only [topoLoop] at h
    cases hr : rec b st with
    | none => simp [hr] at h
    | some r =>
      cases r with
      | error e' =>
        simp only [hr, Option.some.injEq, Except.error.injEq] at h
        subst h
        exact hrec _ _ _ hr
      | ok st1 =>
        simp only [hr] at h
        exact ih _ _ h

/-- The only error the sort throws is the cycle error. -/
theorem topoDfs_error (g : Bit2Bits) :
    ∀ (fuel : Nat) (bit : SigBit) (st : TopoState) (e : String),
      topoDfs g fuel bit st = some (Except.error e) → e = cycleError := by
  intro fuel
  induction fuel with
  | zero => intro bit st e h; simp [topoDfs] at h
  | succ n ih =>
    intro bit st e h
    rw [topoDfs_succ] at h
    by_cases h1 : bit ∈ st.processed
    · simp [h1] at h
    · simp only [h1, if_false] at h
      by_cases h2 : bit ∈ st.visited
      · simp only [h2, if_true, Option.some.injEq, Except.error.injEq] at h
        exact h.symm
      · simp only [h2, if_false] at h
        cases hl : topoLoop (topoDfs g n) ((succs g bit).map Prod.fst)
            ⟨bit :: st.visited, st.processed, st.topo_order⟩ with
        | none => simp [hl] at h
        | some r =>
          cases r with
          | error e' =>
            simp only [hl, Option.some.injEq, Except.error.injEq] at h
            subst h
            exact topoLoop_error ih _ _ _ hl
          | ok st2 => simp [hl] at h

theorem topoLoop_no_error {g : Bit2Bits}
    {rec : SigBit → TopoState → Option (Except String TopoState)}
    (hok : ∀ b s s', TopoInv g s → rec b s = some (Except.ok s') →
      TopoInv g s' ∧ TopoStep s s' ∧ b ∈ s'.processed)
    (hne : ∀ b s e, TopoInv g s →
      (∀ x ∈ s.visited, x ∉ s.processed → Relation.TransGen (Edge g) x b) →
      rec b s ≠ some (Except.error e)) :
    ∀ (l : List SigBit) (st : TopoState) (e : String), TopoInv g st →
      (∀ b ∈ l, ∀ x ∈ st.visited, x ∉ st.processed → Relation.TransGen (Edge g) x b) →
      topoLoop rec l st ≠ some (Except.error e) := by
  intro l
  induction l with
  | nil => intro st e _ _ h; simp [topoLoop] at h
  | cons b rest ih =>
    intro st e hinv hstack h
    simp only [topoLoop] at h
    cases hr : rec b st with
    | none => simp [hr] at h
    | some r =>
      cases r with
      | error e' =>
        exact hne b st e' hinv (hstack b (List.mem_cons_self _ _)) hr
      | ok st1 =>
        simp only [hr] at h
        obtain ⟨hinv1, hstep, _⟩ := hok _ _ _ hinv hr
        refine ih _ _ hinv1 ?_ h
        intro b' hb' x hx hxp
        rcases hstep.2.2.2.1 x hx with hxv | hxp'
        · exact hstack b' (List.mem_cons_of_mem _ hb') x hxv
            (fun hp => hxp (hstep.2.2.1 x hp))
        · exact absurd hxp' hxp

/-- On an acyclic graph the sorting `dfs` never throws, provided every bit that is
visited but not yet processed (the bits on the stack) leads to the bit entered. -/
theorem topoDfs_no_error (g : Bit2Bits) (hacyc : Acyclic g) :
    ∀ (fuel : Nat) (bit : SigBit) (st : TopoState) (e : String), TopoInv g st →
      (∀ x ∈ st.visited, x ∉ st.processed → Relation.TransGen (Edge g) x bit) →
      topoDfs g fuel bit st ≠ some (Except.error e) := by
  intro fuel
  induction fuel with
  | zero => intro bit st e _ _ h; simp [topoDfs] at h
  | succ n ih =>
    intro bit st e hinv hstack h
    rw [topoDfs_succ] at h
    by_cases h1 : bit ∈ st.processed
    · simp [h1] at h
    · simp only [h1, if_false] at h
      by_cases h2 : bit ∈ st.visited
      · exact hacyc bit (hstack bit h2 h1)
      · simp only [h2, if_false] at h
        obtain ⟨hi1, hi2, hi3, hi4⟩ := hinv
        have hinv1 : TopoInv g ⟨bit :: st.visited, st.processed, st.topo_order⟩ :=
          ⟨hi1, fun x hx => List.mem_cons_of_mem _ (hi2 x hx), hi3, hi4⟩
        cases hl : topoLoop (topoDfs g n) ((succs g bit).map Prod.fst)
            ⟨bit :: st.visited, st.processed, st.topo_order⟩ with
        | none => simp [hl] at h
        | some r =>
          cases r with
          | ok st2 => simp [hl] at h
          | error e' =>
            refine topoLoop_no_error (topoDfs_ok g n) ih _ _ e' hinv1 ?_ hl
            intro b hb x hx hxp
            obtain ⟨⟨v, c⟩, hmem, rfl⟩ := List.mem_map.1 hb
            have hedge : Edge g bit v := ⟨c, hmem⟩
            rcases List.mem_cons.1 hx with rfl | hx
            · exact Relation.TransGen.single hedge
            · exact Relation.TransGen.tail (hstack x hx hxp) hedge

/-! ## Topological orderer: the method `topological_sort` -/

theorem indexOf_reverse_add {l : List SigBit} (hnd : l.Nodup) {x : SigBit} (hx : x ∈ l) :
    l.reverse.indexOf x + l.indexOf x + 1 = l.length := by
  induction l with
  | nil => simp at hx
  | cons a l ih =>
    rw [List.nodup_cons] at hnd
    rw [List.reverse_cons]
    by_cases hxa : x = a
    · subst hxa
      have hnr : x ∉ l.reverse := fun h => hnd.1 (List.mem_reverse.1 h)
      rw [List.indexOf_append_of_not_mem hnr, List.indexOf_cons_self]
      simp
    · have hxl : x ∈ l := by
        rcases List.mem_cons.1 hx with h | h
        · exact absurd h hxa
        · exact h
      rw [List.indexOf_append_of_mem (List.mem_reverse.2 hxl),
        List.indexOf_cons_ne _ (Ne.symm hxa)]
      have := ih hnd.2 hxl
      simp only [List.length_cons]
      omega

theorem topoInv_init (g : Bit2Bits) : TopoInv g ⟨[], [], []⟩ :=
  ⟨fun _ => Iff.rfl, fun _ h => by simp at h, List.nodup_nil, fun _ h => by simp at h⟩

/-- What a returned order satisfies: no bit twice, every bit of `bits` listed, and every
edge leaving a listed bit leads to a bit listed later. -/
theorem topological_sort_ok {w : GraphIsomorphismWorker} {fuel : Nat} {order : List SigBit}
    (h : topological_sort w fuel = some (Except.ok order)) :
    order.Nodup ∧ (∀ b ∈ w.bits, b ∈ order) ∧
    ∀ u ∈ order, ∀ v, Edge w.bit2bits u v →
      v ∈ order ∧ order.indexOf u < order.indexOf v := by
  unfold topological_sort at h
  cases hl : topoLoop (topoDfs w.bit2bits fuel) w.bits ⟨[], [], []⟩ with
  | none => simp [hl] at h
  | some r =>
    cases r with
    | error e => simp [hl] at h
    | ok st =>
      simp only [hl, Option.some.injEq, Except.ok.injEq] at h
      subst h
      obtain ⟨⟨hj1, _, hj3, hj4⟩, _, hall⟩ :=
        topoLoop_ok (topoDfs_ok w.bit2bits fuel) _ _ _ (topoInv_init _) hl
      refine ⟨List.nodup_reverse.2 hj3, ?_, ?_⟩
      · intro b hb
        exact List.mem_reverse.2 ((hj1 b).1 (hall b hb))
      · intro u hu v huv
        have hu' : u ∈ st.topo_order := List.mem_reverse.1 hu
        obtain ⟨hv', hlt⟩ := hj4 u hu' v huv
        refine ⟨List.mem_reverse.2 hv', ?_⟩
        have e1 := indexOf_reverse_add hj3 hu'
        have e2 := indexOf_reverse_add hj3 hv'
        omega

theorem topological_sort_isSome (w : GraphIsomorphismWorker) (k : Nat) :
    (topological_sort w (w.bit2bits.length + 1 + k)).isSome = true := by
  unfold topological_sort
  have hloop : (topoLoop (topoDfs w.bit2bits (w.bit2bits.length + 1 + k)) w.bits
      ⟨[], [], []⟩).isSome = true := by
    refine topoLoop_isSome (g := w.bit2bits) w.bit2bits.length (topoDfs_visited _ _) ?_ _ _
      (free_le_length _ _)
    intro b s hs
    apply topoDfs_isSome
    omega
  cases hl : topoLoop (topoDfs w.bit2bits (w.bit2bits.length + 1 + k)) w.bits ⟨[], [], []⟩ with
  | none => simp [hl] at hloop
  | some r => cases r <;> simp

theorem topological_sort_error {w : GraphIsomorphismWorker} {fuel : Nat} {e : String}
    (h : topological_sort w fuel = some (Except.error e)) : e = cycleError := by
  unfold topological_sort at h
  cases hl : topoLoop (topoDfs w.bit2bits fuel) w.bits ⟨[], [], []⟩ with
  | none => simp [hl] at h
  | some r =>
    cases r with
    | error e' =>
      simp only [hl, Option.some.injEq, Except.error.injEq] at h
      subst h
      exact topoLoop_error (topoDfs_error _ _) _ _ _ hl
    | ok st => simp [hl] at h

/-- On an acyclic graph the sort returns an order. -/
theorem topological_sort_acyclic (w : GraphIsomorphismWorker) (k : Nat)
    (hacyc : Acyclic w.bit2bits) :
    ∃ order, topological_sort w (w.bit2bits.length + 1 + k) = some (Except.ok order) := by
  have hsome := topological_sort_isSome w k
  cases hr : topological_sort w (w.bit2bits.length + 1 + k) with
  | none => simp [hr] at hsome
  | some r =>
    cases r with
    | ok order => exact ⟨order, rfl⟩
    | error e =>
      exfalso
      unfold topological_sort at hr
      cases hl : topoLoop (topoDfs w.bit2bits (w.bit2bits.length + 1 + k)) w.bits
          ⟨[], [], []⟩ with
      | none => simp [hl] at hr
      | some r' =>
        cases r' with
        | ok st => simp [hl] at hr
        | error e' =>
          refine topoLoop_no_error (topoDfs_ok _ _) (topoDfs_no_error _ hacyc _) _ _ e'
            (topoInv_init _) ?_ hl
          intro b _ x hx
          simp at hx

/-- A set of listed bits closed under edges contains what its members reach. -/
theorem mem_order_of_reach {g : Bit2Bits} {order : List SigBit}
    (hcl : ∀ u ∈ order, ∀ v, Edge g u v → v ∈ order) {r u : SigBit} (hr : r ∈ order)
    (h : Reach g r u) : u ∈ order := by
  induction h with
  | refl => exact hr
  | tail _ hbc ih => exact hcl _ ih _ hbc

/-- Along a path of one or more edges between listed bits the index grows. -/
theorem indexOf_lt_of_transGen {g : Bit2Bits} {order : List SigBit}
    (hord : ∀ u ∈ order, ∀ v, Edge g u v → v ∈ order ∧ order.indexOf u < order.indexOf v)
    {u v : SigBit} (hu : u ∈ order) (h : Relation.TransGen (Edge g) u v) :
    v ∈ order ∧ order.indexOf u < order.indexOf v := by
  induction h with
  | single huv => exact hord u hu _ huv
  | tail _ hbc ih =>
    obtain ⟨hb, hlt⟩ := ih
    obtain ⟨hc, hlt'⟩ := hord _ hb _ hbc
    exact ⟨hc, lt_trans hlt hlt'⟩

theorem succs_mem {g : Bit2Bits} {u : SigBit} {e : SigBit × Cell} (h : e ∈ succs g u) :
    ∃ m, (u, m) ∈ g ∧ e ∈ m := by
  induction g with
  | nil => simp [succs] at h
  | cons kv rest ih =>
    obtain ⟨k, m⟩ := kv
    by_cases hk : k = u
    · simp only [succs, if_pos hk] at h
      exact ⟨m, by simp [hk], h⟩
    · simp only [succs, if_neg hk] at h
      obtain ⟨m', hm', he⟩ := ih h
      exact ⟨m', List.mem_cons_of_mem _ hm', he⟩

/-- A graph all of whose edges lead to a larger bit number is acyclic. -/
theorem acyclic_of_increasing (g : Bit2Bits) (h : ∀ kv ∈ g, ∀ e ∈ kv.2, kv.1 < e.1) :
    Acyclic g := by
  have hedge : ∀ u v, Edge g u v → u < v := by
    intro u v ⟨c, hc⟩
    obtain ⟨m, hm, he⟩ := succs_mem hc
    exact h (u, m) hm (v, c) he
  have htrans : ∀ u v, Relation.TransGen (Edge g) u v → u < v := by
    intro u v huv
    induction huv with
    | single h1 => exact hedge _ _ h1
    | tail _ hbc ih => exact lt_trans ih (hedge _ _ hbc)
  intro v hv
  exact lt_irrefl _ (htrans v v hv)

/-! ## Comparator: the loop of `run` -/

/-- C1: targeted search decides reachability.  For every adjacency map `g`, source and
target, with any fuel above the number of keys of `g`, `dfs(from_bit)` returns, `run`
stores its result in `path_found`, and that result is `true` exactly when the target is
reachable from the source along zero or more edges of `g`. -/
theorem targeted_search_decides_reachability (g : Bit2Bits) (src tgt : SigBit) (k : Nat) :
    ∃ b st r, dfs ⟨g, src, some tgt⟩ (g.length + 1 + k) src LtpState.init = some (b, st) ∧
      run ⟨g, src, some tgt⟩ (g.length + 1 + k) = some r ∧ r.path_found = b ∧
      (b = true ↔ Reach g src tgt) := by
  obtain ⟨b, st, hd, hiff⟩ := dfs_true_iff_reach g src tgt k
  obtain ⟨r, hrun, hfound, _⟩ := run_of_dfs hd
  exact ⟨b, st, r, hd, hrun, hfound, hiff⟩

/-- C2 (evaluation at the failing input): on the graph `0 → 1`, `1 → 0`, `1 → 2`, searching
from `0` to `2`, the search succeeds but the reported bits are `0, 1, 2, 0`: the report
does not end at the target, and its last pair `2, 0` is not an edge (`2` has no
successors). -/
theorem run_reentered_source_reports_past_target :
    run ⟨backEdge, 0, some 2⟩ 4 =
      some ⟨true, ⟨[], [0, 1, 2, 0, 0], [(1, 11), (0, 10)]⟩,
        Report.records [(0, 0, some 11), (1, 1, some 10), (2, 2, none), (3, 0, none)]⟩ ∧
    succs backEdge 2 = [] := by
  constructor <;> rfl

/-- C7: `dfs` terminates on every adjacency map, in open and in targeted mode and from
every state, as soon as the fuel exceeds the number of keys of the map; and a call on a
bit that is in `busy` (and is not the target, which never enters `busy`) returns `false`
at once, with no recursive call (one unit of fuel is enough), leaving `busy` and
`path_with_cells` as they were. -/
theorem dfs_terminates_and_abandons_busy_bit (w : LtpWorker) :
    (∀ (k : Nat) (cur : SigBit) (st : LtpState),
      (dfs w (w.bit2bits.length + 1 + k) cur st).isSome = true) ∧
    (∀ (fuel : Nat) (b : SigBit) (st : LtpState), b ∈ st.busy → w.to_bit ≠ some b →
      dfs w (fuel + 1) b st = some (false, enter w b st) ∧
      (enter w b st).busy = st.busy ∧
      (enter w b st).path_with_cells = st.path_with_cells) := by
  constructor
  · intro k cur st
    apply dfs_isSome
    have := free_le_length w.bit2bits st.busy
    omega
  · intro fuel b st hb ht
    refine ⟨?_, enter_busy _ _ _, enter_pwc _ _ _⟩
    rw [dfs_succ, if_neg ht, if_pos hb]

/-- Witness for C7 on the self-loop `0 → 0`, re-entering `0` while it is busy. -/
theorem dfs_terminates_and_abandons_busy_bit_witness :
    (dfs ⟨selfLoop, 0, none⟩ (selfLoop.length + 1 + 0) 0 LtpState.init).isSome = true ∧
    (0 ∈ (⟨[0], [0], []⟩ : LtpState).busy ∧ (⟨selfLoop, 0, none⟩ : LtpWorker).to_bit ≠ some 0 ∧
      dfs ⟨selfLoop, 0, none⟩ (0 + 1) 0 ⟨[0], [0], []⟩ =
        some (false, enter ⟨selfLoop, 0, none⟩ 0 ⟨[0], [0], []⟩)) :=
  ⟨(dfs_terminates_and_abandons_busy_bit ⟨selfLoop, 0, none⟩).1 0 0 LtpState.init,
   by decide, by decide,
   ((dfs_terminates_and_abandons_busy_bit ⟨selfLoop, 0, none⟩).2 0 0 ⟨[0], [0], []⟩
      (by decide) (by decide)).1⟩

/-- C8 (evaluation at the failing input): on the chain `A → B → C` with cells `E`, `F`
(`A, B, C = 0, 1, 2`, `E, F = 10, 11`) the open-mode search from `A` reports the bits
`A, B, C`, but every record carries `null`, `path_with_cells` stays empty and
`path_found` is `false`. -/
theorem run_open_chain_reports_null_cells :
    run ⟨chainABC, 0, none⟩ 4 =
      some ⟨false, ⟨[], [0, 1, 2, 0], []⟩,
        Report.records [(0, 0, none), (1, 1, none), (2, 2, none)]⟩ := by
  rfl

/-- C9 (evaluation at the failing input): on the chain `A → B → C` with cells `E`, `F`
(`A, B, C = 0, 1, 2`, `E, F = 10, 11`) the targeted search from `A` to `C` reports the bits
`A, B, C` with the cells `F, E, null`: record `i` carries `path_with_cells[i]`, which
is stored last hop first. -/
theorem run_targeted_chain_reports_cells_reversed :
    run ⟨chainABC, 0, some 2⟩ 4 =
      some ⟨true, ⟨[], [0, 1, 2, 0], [(1, 11), (0, 10)]⟩,
        Report.records [(0, 0, some 11), (1, 1, some 10), (2, 2, none)]⟩ := by
  rfl

/-- Targeted search from a source with two branches, where the successful branch does
not lead back to the source.  When the source (different from the target) has exactly
the two successors `x` and `y`, in either iteration order, the target is unreachable
from `x` and reachable from `y`, and the source is unreachable from `y`, then the search
succeeds and the reported bits are the source followed by a route from `y` to the
target; no reported bit is reachable from the failing branch head `x`. -/
theorem targeted_branch_report_without_return (g : Bit2Bits)
    (src t x y : SigBit) (cx cy : Cell) (k : Nat) (hsrc : src ≠ t)
    (hsucc : succs g src = [(x, cx), (y, cy)] ∨ succs g src = [(y, cy), (x, cx)])
    (hys : ¬ Reach g y src)
    (hfail : ¬ Reach g x t) (hok : Reach g y t) :
    ∃ r hs, run ⟨g, src, some t⟩ (g.length + 1 + k) = some r ∧ r.path_found = true ∧
      Route g y hs t ∧ r.report.bits = src :: (hs.map Prod.fst ++ [t]) ∧
      ∀ b ∈ r.report.bits, ¬ Reach g x b := by
  have hey : Edge g src y := ⟨cy, by rcases hsucc with h | h <;> simp [h]⟩
  have hxs : ¬ Reach g x src := fun h =>
    hfail (h.trans (Relation.ReflTransGen.head hey hok))
  have hcyc : ¬ Relation.TransGen (Edge g) src src := by
    intro h
    obtain ⟨v, hv, hvs⟩ := Relation.TransGen.head'_iff.1 h
    obtain ⟨c, hc⟩ := hv
    rcases hsucc with hs | hs <;> rw [hs] at hc <;> simp at hc <;>
      rcases hc with ⟨rfl, _⟩ | ⟨rfl, _⟩ <;> first | exact hxs hvs | exact hys hvs
  obtain ⟨b, st, hd, hiff⟩ := dfs_true_iff_reach g src t k
  have hb : b = true := hiff.2 (Relation.ReflTransGen.head hey hok)
  subst hb
  obtain ⟨r, hs, hrun, hfound, hroute, hbits, _⟩ :=
    run_targeted_acyclic_source ⟨g, src, some t⟩ t rfl hcyc hd
  have hroute' : Route g src hs t := hroute
  cases hroute' with
  | nil => exact absurd rfl hsrc
  | @cons _ v c hs' _ hmem hr =>
    have hv : v = y := by
      have hvx : v ≠ x := fun h => hfail (h ▸ hr.reach)
      rcases hsucc with hs | hs <;> rw [hs] at hmem <;>
        simp at hmem <;> rcases hmem with ⟨rfl, _⟩ | ⟨rfl, _⟩ <;>
        first | rfl | exact absurd rfl hvx
    subst hv
    refine ⟨r, hs', hrun, hfound, hr, by simpa using hbits, ?_⟩
    intro b hb hxb
    rw [hbits] at hb
    have hbt : Reach g b t := by
      have hfull : Route g src ((src, c) :: hs') t := Route.cons hmem hr
      exact hfull.reach_of_mem hb
    exact hfail (hxb.trans hbt)

/-- The lemma above on the source `0` with the dead-end branch `1 → 3` and the branch
`2 → 4` that reaches the target `4`. -/
theorem targeted_branch_report_twoBranches :
    ∃ r hs, run ⟨twoBranches, 0, some 4⟩ (twoBranches.length + 1 + 0) = some r ∧
      r.path_found = true ∧ Route twoBranches 2 hs 4 ∧
      r.report.bits = 0 :: (hs.map Prod.fst ++ [4]) ∧
      ∀ b ∈ r.report.bits, ¬ Reach twoBranches 1 b :=
  targeted_branch_report_without_return twoBranches 0 4 1 2 10 11 0 (by decide)
    (Or.inl rfl)
    (fun hy => by
      have h1 := reach_mem_of_closed [2, 4] (by decide) (by decide) hy
      simp at h1)
    (fun hx => by
      have h2 := reach_mem_of_closed [1, 3] (by decide) (by decide) hx
      simp at h2)
    (Relation.ReflTransGen.single ⟨13, by decide⟩)

/-- C10 (evaluation at the failing input): the source `0` has the two branches `1` and
`2`; the target `3` is unreachable from `1` and reachable from `2`, and `2` also has an
edge back to the source, iterated first.  The targeted search from `0` to `3` succeeds,
but the reported bits are `0, 2, 3, 0`, not the source followed by the successful branch
up to the target: the source is pushed again when the search re-enters it. -/
theorem run_returning_branch_reports_past_target :
    succs returnBranch 0 = [(1, 10), (2, 11)] ∧
    ¬ Reach returnBranch 1 3 ∧ Reach returnBranch 2 3 ∧
    run ⟨returnBranch, 0, some 3⟩ 4 =
      some ⟨true, ⟨[], [0, 2, 3, 0, 0], [(2, 13), (0, 11)]⟩,
        Report.records [(0, 0, some 13), (1, 2, some 11), (2, 3, none), (3, 0, none)]⟩ :=
  ⟨rfl,
   fun h => by
     have h1 := reach_mem_of_closed [1] (by decide) (by decide) h
     simp at h1,
   Relation.ReflTransGen.single ⟨13, by decide⟩,
   rfl⟩

/-! ## Topological orderer and comparator: claims C3, C4, C5, C6 -/

/-- C3 (counterexample): the graph with the single edge `0 → 1` is acyclic, but when the
domain `bits` holds only the bit `1`, `topological_sort` returns the order `[1]`: the
source `0` of the edge `0 → 1` is not in `topo_order`. -/
theorem topological_sort_omits_unlisted_source :
    Acyclic unlistedInput ∧
    topological_sort ⟨[1], unlistedInput, 1, 1, 1, 1⟩ 3 = some (Except.ok [1]) ∧
    Edge unlistedInput 0 1 ∧ 0 ∉ [1] :=
  ⟨acyclic_of_increasing _ (by decide), rfl, ⟨10, by decide⟩, by decide⟩

/-- C3 (amended): on every acyclic graph, with any fuel above the number of keys of
`bit2bits`, `topological_sort` returns an order without repetitions that lists every bit
of `bits`, and every edge `u → v` whose source `u` is a bit of `bits` or reachable from
one has both `u` and `v` in `topo_order`, `u` at a strictly smaller index than `v`. -/
theorem topological_sort_orders_reachable_edges (w : GraphIsomorphismWorker) (k : Nat)
    (hacyc : Acyclic w.bit2bits) :
    ∃ order, topological_sort w (w.bit2bits.length + 1 + k) = some (Except.ok order) ∧
      order.Nodup ∧ (∀ b ∈ w.bits, b ∈ order) ∧
      ∀ u v, Edge w.bit2bits u v → (∃ r ∈ w.bits, Reach w.bit2bits r u) →
        u ∈ order ∧ v ∈ order ∧ order.indexOf u < order.indexOf v := by
  obtain ⟨order, hsort⟩ := topological_sort_acyclic w k hacyc
  obtain ⟨hnd, hbits, hord⟩ := topological_sort_ok hsort
  refine ⟨order, hsort, hnd, hbits, ?_⟩
  intro u v huv ⟨r, hr, hru⟩
  have hu : u ∈ order :=
    mem_order_of_reach (fun a ha b hab => (hord a ha b hab).1) (hbits r hr) hru
  exact ⟨hu, hord u hu v huv⟩

/-- Witness for C3 (amended): the chain `0 → 1 → 2` with all three bits in `bits`. -/
theorem topological_sort_orders_reachable_edges_witness :
    Acyclic chainABC ∧
    ∃ order, topological_sort ⟨[0, 1, 2], chainABC, 0, 0, 2, 2⟩ (chainABC.length + 1 + 0) =
        some (Except.ok order) ∧
      order.Nodup ∧ (∀ b ∈ [0, 1, 2], b ∈ order) ∧
      ∀ u v, Edge chainABC u v → (∃ r ∈ [0, 1, 2], Reach chainABC r u) →
        u ∈ order ∧ v ∈ order ∧ order.indexOf u < order.indexOf v :=
  ⟨acyclic_of_increasing _ (by decide),
   topological_sort_orders_reachable_edges ⟨[0, 1, 2], chainABC, 0, 0, 2, 2⟩ 0
     (acyclic_of_increasing _ (by decide))⟩

/-- C4 (counterexample): the graph `0 → 1 → 0` has a cycle through two distinct bits, but
when no bit of it is in the domain `bits` (here `bits` is empty), `topological_sort`
returns the empty order without any error. -/
theorem topological_sort_ignores_unlisted_cycle :
    (0 : SigBit) ≠ 1 ∧ Relation.TransGen (Edge twoCycle) 0 1 ∧
    Relation.TransGen (Edge twoCycle) 1 0 ∧
    topological_sort ⟨[], twoCycle, 0, 0, 1, 1⟩ 3 = some (Except.ok []) :=
  ⟨by decide, Relation.TransGen.single ⟨10, by decide⟩,
   Relation.TransGen.single ⟨11, by decide⟩, rfl⟩

/-- C4 (amended): when the graph has a cycle through two distinct bits `u`, `v` that is
reachable from some bit of the domain `bits`, `topological_sort` (with any fuel above
the number of keys of `bit2bits`) fails with `Found a cycle in the circuit!`. -/
theorem topological_sort_fails_on_reachable_cycle (w : GraphIsomorphismWorker) (k : Nat)
    (u v r : SigBit) (_huv : u ≠ v) (hr : r ∈ w.bits) (hru : Reach w.bit2bits r u)
    (h1 : Relation.TransGen (Edge w.bit2bits) u v)
    (h2 : Relation.TransGen (Edge w.bit2bits) v u) :
    topological_sort w (w.bit2bits.length + 1 + k) =
      some (Except.error "Found a cycle in the circuit!") := by
  have hsome := topological_sort_isSome w k
  cases hres : topological_sort w (w.bit2bits.length + 1 + k) with
  | none => simp [hres] at hsome
  | some res =>
    cases res with
    | error e => rw [topological_sort_error hres]; rfl
    | ok order =>
      exfalso
      obtain ⟨_, hbits, hord⟩ := topological_sort_ok hres
      have hu : u ∈ order :=
        mem_order_of_reach (fun a ha b hab => (hord a ha b hab).1) (hbits r hr) hru
      exact lt_irrefl _ (indexOf_lt_of_transGen hord hu (h1.trans h2)).2

/-- Witness for C4 (amended): the cycle `0 → 1 → 0` with the bit `0` in `bits`. -/
theorem topological_sort_fails_on_reachable_cycle_witness :
    (0 : SigBit) ≠ 1 ∧ 0 ∈ [0] ∧ Reach twoCycle 0 0 ∧
    Relation.TransGen (Edge twoCycle) 0 1 ∧ Relation.TransGen (Edge twoCycle) 1 0 ∧
    topological_sort ⟨[0], twoCycle, 0, 0, 1, 1⟩ (twoCycle.length + 1 + 0) =
      some (Except.error "Found a cycle in the circuit!") :=
  ⟨by decide, by decide, Relation.ReflTransGen.refl,
   Relation.TransGen.single ⟨10, by decide⟩, Relation.TransGen.single ⟨11, by decide⟩,
   topological_sort_fails_on_reachable_cycle ⟨[0], twoCycle, 0, 0, 1, 1⟩ 0 0 1 0
     (by decide) (by decide) Relation.ReflTransGen.refl
     (Relation.TransGen.single ⟨10, by decide⟩) (Relation.TransGen.single ⟨11, by decide⟩)⟩

/-- C6 (evaluation at the failing input): on the acyclic chain `0 → 1 → 2` with
`from_bit_a = from_bit_b = 0`, `to_bit_a = 2` and `to_bit_b = 3`, no route leads from
`0` to `3`, yet the `runner` call for pair B returns `true` (it stops at `to_bit_a`
because `path_b` has become equal to `path_a`) and `run` declares the paths
isomorphic. -/
theorem run_isomorphic_without_route :
    Acyclic chainABC ∧ ¬ Reach chainABC 0 3 ∧
    GraphIsomorphismWorker.run ⟨[0, 1, 2, 3], chainABC, 0, 0, 2, 3⟩ 4 =
      some (Except.ok ⟨true, [(0, none), (1, some 10)], [(0, none), (1, some 10)],
        some true, some true⟩) :=
  ⟨acyclic_of_increasing _ (by decide),
   fun h => by
     have := reach_mem_of_closed [0, 1, 2] (by decide) (by decide) h
     simp at this,
   rfl⟩

/-! ## Open search: what a call of `dfs` leaves behind -/

theorem Route.head_mem {g : Bit2Bits} {u t : SigBit} {hs : List (SigBit × Cell)}
    (h : Route g u hs t) : u ∈ hs.map Prod.fst ++ [t] := by
  cases h with
  | nil => simp
  | cons _ _ => simp

theorem dfsLoop_open {w : LtpWorker} {cur : SigBit} {B : List SigBit}
    {rec : SigBit → LtpState → Option (Bool × LtpState)}
    (hbusy : ∀ n s b s', rec n s = some (b, s') → s'.busy = s.busy)
    (hrec : ∀ n s b s', rec n s = some (b, s') → s.busy = B → OpenSpec w n s b s') :
    ∀ (l : List (SigBit × Cell)) (st : LtpState) (b : Bool) (st' : LtpState),
      dfsLoop rec false cur l false st = some (b, st') → st.busy = B →
      b = false ∧ st'.path_with_cells = st.path_with_cells ∧
      ∃ P : List SigBit, st'.path = st.path ++ P ∧
        (∀ x ∈ P, ∃ e ∈ l, Reach w.bit2bits e.1 x) ∧
        (∀ e ∈ l, ∀ hs t, Route w.bit2bits e.1 hs t →
          (∀ x ∈ hs.map Prod.fst ++ [t], x ∉ B) → t ∈ P) := by
  intro l
  induction l with
  | nil =>
    intro st b st' h _
    simp only [dfsLoop, Option.some.injEq, Prod.mk.injEq] at h
    obtain ⟨rfl, rfl⟩ := h
    exact ⟨rfl, rfl, [], by simp, by simp, by simp⟩
  | cons it rest ih =>
    intro st b st' h hB
    simp only [dfsLoop] at h
    cases hr : rec it.1 st with
    | none => simp [hr] at h
    | some r =>
      obtain ⟨rb, st1⟩ := r
      obtain ⟨hrb, hpwc, Pc, hPc, hreach, hcompl⟩ := hrec _ _ _ _ hr hB
      subst hrb
      simp only [hr] at h
      have hb1 : st1.busy = B := by rw [hbusy _ _ _ _ hr, hB]
      obtain ⟨hb, hpwc', Pr, hPr, hreachr, hcomplr⟩ := ih _ _ _ h hb1
      refine ⟨hb, by rw [hpwc', hpwc], (if it.1 = w.from_bit then [it.1] else []) ++ Pc ++ Pr,
        ?_, ?_, ?_⟩
      · rw [hPr, hPc, enter_path]; simp only [List.append_assoc]
      · intro x hx
        rcases List.mem_append.1 hx with hx | hx
        · refine ⟨it, List.mem_cons_self _ _, ?_⟩
          rcases List.mem_append.1 hx with hx | hx
          · by_cases hc : it.1 = w.from_bit
            · simp only [hc, if_true, List.mem_singleton] at hx
              rw [hx, hc]; exact Relation.ReflTransGen.refl
            · simp [hc] at hx
          · exact hreach x hx
        · obtain ⟨e, he, hre⟩ := hreachr x hx
          exact ⟨e, List.mem_cons_of_mem _ he, hre⟩
      · intro e he hs t hroute hav
        rcases List.mem_cons.1 he with rfl | he
        · have := hcompl hs t hroute (by rw [hB]; exact hav)
          exact List.mem_append_left _ (List.mem_append_right _ this)
        · exact List.mem_append_right _ (hcomplr e he hs t hroute hav)

theorem dfs_open (w : LtpWorker) (hopen : w.to_bit = none) :
    ∀ (fuel : Nat) (cur : SigBit) (st : LtpState) (b : Bool) (st' : LtpState),
      dfs w fuel cur st = some (b, st') → OpenSpec w cur st b st' := by
  intro fuel
  induction fuel with
  | zero => intro cur st b st' h; simp [dfs] at h
  | succ n ih =>
    intro cur st b st' h
    rcases dfs_cases h with ⟨h1, _, _⟩ | ⟨_, h2, rfl, rfl⟩ | ⟨_, h2, st3, hl, rfl⟩
    · rw [hopen] at h1; exact absurd h1 (by simp)
    · refine ⟨rfl, by simp, [], by simp, by simp, ?_⟩
      intro hs t hroute hav
      exact absurd h2 (hav cur hroute.head_mem)
    · have htg : w.to_bit.isSome = false := by rw [hopen]; rfl
      rw [htg] at hl
      obtain ⟨hb, hpwc, P, hP, hreach, hcompl⟩ :=
        dfsLoop_open (B := cur :: st.busy) (dfs_busy w n)
          (fun nxt s b' s' hcall _ => ih nxt s b' s' hcall) _ _ _ _ hl rfl
      refine ⟨hb, by simp [leave, hpwc, descend], P ++ [cur], ?_, ?_, ?_⟩
      · simp [leave, hopen, hP, descend]
      · intro x hx
        rcases List.mem_append.1 hx with hx | hx
        · obtain ⟨e, he, hre⟩ := hreach x hx
          exact Relation.ReflTransGen.head ⟨e.2, he⟩ hre
        · simp only [List.mem_singleton] at hx
          rw [hx]; exact Relation.ReflTransGen.refl
      · intro hs t hroute hav
        by_cases htc : t = cur
        · simp [htc]
        · have hcur : cur ∈ hs.map Prod.fst := by
            cases hroute with
            | nil => exact absurd rfl htc
            | cons _ _ => simp
          obtain ⟨c, hs', hroute', hnot, hsub⟩ := hroute.last_visit cur hcur
          cases hroute' with
          | @cons _ v _ _ _ hmem hr =>
            refine List.mem_append_left _ (hcompl (v, c) hmem hs' t hr ?_)
            intro x hx
            simp only [List.mem_cons, not_or]
            rcases List.mem_append.1 hx with hx | hx
            · refine ⟨?_, hav x (List.mem_append_left _ (hsub x hx))⟩
              rintro rfl
              exact hnot hx
            · simp only [List.mem_singleton] at hx
              subst hx
              exact ⟨htc, hav x (List.mem_append_right _ (List.mem_singleton_self _))⟩

/-! ## `LtpWorker::run`: open mode and the report -/

/-- The search from the initial state returns once the fuel exceeds the number of
keys. -/
theorem dfs_init_returns (w : LtpWorker) (k : Nat) :
    ∃ b st, dfs w (w.bit2bits.length + 1 + k) w.from_bit LtpState.init = some (b, st) := by
  have hsome := dfs_isSome w (w.bit2bits.length + 1 + k) w.from_bit LtpState.init
    (by have := free_le_length w.bit2bits LtpState.init.busy; omega)
  cases hd : dfs w (w.bit2bits.length + 1 + k) w.from_bit LtpState.init with
  | none => simp [hd] at hsome
  | some r => exact ⟨r.1, r.2, rfl⟩

/-- After `dfs(from_bit)` the vector `path` is never empty: it starts with the source. -/
theorem dfs_init_path_ne_nil (w : LtpWorker) {fuel : Nat} {b : Bool} {st : LtpState}
    (h : dfs w fuel w.from_bit LtpState.init = some (b, st)) :
    ∃ tl, st.path = w.from_bit :: tl := by
  cases hto : w.to_bit with
  | none =>
    obtain ⟨_, _, P, hP, _, _⟩ := dfs_open w hto _ _ _ _ _ h
    exact ⟨P, by rw [hP, enter_path]; simp [LtpState.init]⟩
  | some t =>
    obtain ⟨L, _, _, hf, htr⟩ := dfs_targeted w t hto _ _ _ _ _ h
    cases b with
    | false =>
      obtain ⟨hp, _⟩ := hf rfl
      exact ⟨L, by rw [hp, enter_path]; simp [LtpState.init]⟩
    | true =>
      obtain ⟨hs, _, hp, _⟩ := htr rfl
      exact ⟨L ++ t :: (hs.map Prod.fst).reverse, by
        rw [hp, enter_path]; simp [LtpState.init]⟩

/-- The method `run` always logs records, and at least one: the warning branch is never
taken. -/
theorem run_reports_records (w : LtpWorker) (k : Nat) :
    ∃ r rs, run w (w.bit2bits.length + 1 + k) = some r ∧ r.report = Report.records rs ∧
      rs ≠ [] := by
  obtain ⟨b, st, hd⟩ := dfs_init_returns w k
  obtain ⟨tl, htl⟩ := dfs_init_path_ne_nil w hd
  have hne : st.path ≠ [] := by rw [htl]; simp
  unfold run
  simp only [hd, hne, ne_eq, not_false_eq_true, if_true]
  refine ⟨_, _, rfl, rfl, ?_⟩
  intro hnil
  have hlen := congrArg List.length hnil
  simp only [List.length_map, List.length_range, List.length_nil, htl, List.reverse_cons,
    List.length_append, List.length_reverse, List.length_singleton] at hlen
  split at hlen <;> omega

/-! ## Open search where no reachable bit has more than one edge -/

/-- The loop of `dfs` in open mode over at most one successor. -/
theorem dfsLoop_open_single {rec : SigBit → LtpState → Option (Bool × LtpState)}
    {cur : SigBit} {l : List (SigBit × Cell)} (hl : l.length ≤ 1) {st : LtpState} {b : Bool}
    {st' : LtpState} (h : dfsLoop rec false cur l false st = some (b, st'))
    (hrec : ∀ n s b' s', rec n s = some (b', s') → b' = false) :
    (l = [] ∧ st' = st) ∨ ∃ n c, l = [(n, c)] ∧ rec n st = some (false, st') := by
  match l, hl with
  | [], _ =>
    simp only [dfsLoop, Option.some.injEq, Prod.mk.injEq] at h
    exact Or.inl ⟨rfl, h.2.symm⟩
  | [(n, c)], _ =>
    refine Or.inr ⟨n, c, rfl, ?_⟩
    simp only [dfsLoop] at h
    cases hr : rec n st with
    | none => simp [hr] at h
    | some q =>
      obtain ⟨rb, s1⟩ := q
      have := hrec _ _ _ _ hr
      subst this
      simp only [hr, dfsLoop, Option.some.injEq, Prod.mk.injEq] at h
      rw [h.2]
  | _ :: _ :: _, hl => simp at hl

theorem dfs_open_chain (w : LtpWorker) (hopen : w.to_bit = none)
    (hdeg : ∀ u, Reach w.bit2bits w.from_bit u → (succs w.bit2bits u).length ≤ 1) :
    ∀ (fuel : Nat) (v : SigBit) (st : LtpState) (b : Bool) (st' : LtpState),
      dfs w fuel v st = some (b, st') → w.from_bit ∈ st.busy →
      Reach w.bit2bits w.from_bit v → ChainSpec w v st st' := by
  intro fuel
  induction fuel with
  | zero => intro v st b st' h; simp [dfs] at h
  | succ n ih =>
    intro v st b st' h hfrom hreach
    rcases dfs_cases h with ⟨h1, _, _⟩ | ⟨_, h2, _, rfl⟩ | ⟨_, h2, st3, hl, rfl⟩
    · rw [hopen] at h1; exact absurd h1 (by simp)
    · exact Or.inl ⟨h2, enter_path _ _ _⟩
    · have hvf : v ≠ w.from_bit := fun hv => h2 (hv ▸ hfrom)
      have htg : w.to_bit.isSome = false := by rw [hopen]; rfl
      rw [htg] at hl
      have hdesc : (descend w v st).path = st.path := by
        simp [descend, enter_path, hvf]
      refine Or.inr ⟨h2, ?_⟩
      rcases dfsLoop_open_single (hdeg v hreach) hl
          (fun m s b' s' hc => (dfs_open w hopen _ _ _ _ _ hc).1) with
        ⟨_, rfl⟩ | ⟨m, c, hsuc, hcall⟩
      · refine ⟨[v], [], rfl, List.chain'_singleton _, ?_, Or.inl rfl⟩
        simp [leave, hopen, hdesc]
      · have hedge : Edge w.bit2bits v m := ⟨c, by rw [hsuc]; exact List.mem_singleton_self _⟩
        rcases ih m _ _ _ hcall (List.mem_cons_of_mem _ hfrom)
            (Relation.ReflTransGen.tail hreach hedge) with
          ⟨_, hp⟩ | ⟨_, ch, X, hhead, hchain, hp, hX⟩
        · by_cases hmf : m = w.from_bit
          · refine ⟨[v], [w.from_bit], rfl, List.chain'_singleton _, ?_,
              Or.inr ⟨rfl, v, rfl, hmf ▸ hedge⟩⟩
            simp [leave, hopen, hp, hdesc, hmf]
          · refine ⟨[v], [], rfl, List.chain'_singleton _, ?_, Or.inl rfl⟩
            simp [leave, hopen, hp, hdesc, hmf]
        · refine ⟨v :: ch, X, rfl, ?_, ?_, ?_⟩
          · apply List.Chain'.cons' hchain
            intro y hy
            rw [hhead] at hy
            simp only [Option.mem_def, Option.some.injEq] at hy
            exact hy ▸ hedge
          · simp [leave, hopen, hp, hdesc]
          · rcases hX with hX | ⟨hX, last, hlast, hle⟩
            · exact Or.inl hX
            · refine Or.inr ⟨hX, last, ?_, hle⟩
              cases ch with
              | nil => simp at hhead
              | cons a tl => simpa using hlast

/-! ## Path finder: claim C16 -/

/-- C16 (counterexample): on the graph with the branches `0 → 1 → 3` and `0 → 2 → 4` the
open-mode search from `0` reports the bits `0, 2, 4, 1, 3`: both branches are in the
path, and the consecutive pair `4, 1` is not an edge (`4` has no successors). -/
theorem run_open_reports_both_branches :
    run ⟨twoBranches, 0, none⟩ 4 =
      some ⟨false, ⟨[], [0, 2, 4, 1, 3, 0], []⟩,
        Report.records [(0, 0, none), (1, 2, none), (2, 4, none), (3, 1, none), (4, 3, none)]⟩ ∧
    succs twoBranches 4 = [] := by
  constructor <;> rfl

/-- C16 (amended): in open mode, for every graph and source such that no bit reachable
from the source has more than one outgoing edge, the reported path is a single chain: it
starts at the source and every consecutive pair of bits in it is an edge of the
adjacency map.  Bits that the source does not reach may branch freely. -/
theorem run_open_single_chain (g : Bit2Bits) (src : SigBit) (k : Nat)
    (hdeg : ∀ u, Reach g src u → (succs g u).length ≤ 1) :
    ∃ r, run ⟨g, src, none⟩ (g.length + 1 + k) = some r ∧
      r.report.bits.head? = some src ∧ List.Chain' (Edge g) r.report.bits := by
  obtain ⟨b, st, hd⟩ := dfs_init_returns ⟨g, src, none⟩ k
  have hpathOf : ∀ tl : List SigBit, st.path = src :: (tl ++ [src]) →
      ∃ r, run ⟨g, src, none⟩ (g.length + 1 + k) = some r ∧
        r.report.bits = src :: tl.reverse := by
    intro tl htl
    obtain ⟨r, hrun, _, hbits⟩ := run_bits hd (by rw [htl]; simp)
    refine ⟨r, hrun, ?_⟩
    have hrev : st.path.reverse = (src :: tl.reverse) ++ [src] := by rw [htl]; simp
    rw [hbits, hrev]
    have hhead : ((src :: tl.reverse) ++ [src]).head? = some src := rfl
    have hlast : ((src :: tl.reverse) ++ [src]).getLast? = some src :=
      List.getLast?_concat _
    rw [hhead, hlast]
    simp only [true_and, List.length_append, List.length_cons, List.length_reverse,
      List.length_singleton, gt_iff_lt]
    rw [if_pos (by omega)]
    exact List.take_left' (by simp)
  have hd' : dfs ⟨g, src, none⟩ (g.length + k + 1) src LtpState.init = some (b, st) := by
    have hfuel : g.length + k + 1 = g.length + 1 + k := by omega
    rw [hfuel]; exact hd
  rcases dfs_cases hd' with ⟨h1, _, _⟩ | ⟨_, h2, _, _⟩ | ⟨_, _, st3, hl, hst⟩
  · exact absurd h1 (by simp)
  · simp [LtpState.init] at h2
  · simp only [Option.isSome_none] at hl
    have hdesc : (descend ⟨g, src, none⟩ src LtpState.init).path = [src] := by
      simp [descend, enter_path, LtpState.init]
    have hleave : st.path = st3.path ++ [src] := by rw [hst]; simp [leave]
    rcases dfsLoop_open_single (hdeg src Relation.ReflTransGen.refl) hl
        (fun m s b' s' hc => (dfs_open ⟨g, src, none⟩ rfl _ _ _ _ _ hc).1) with
      ⟨_, h3⟩ | ⟨m, c, hsuc, hcall⟩
    · obtain ⟨r, hrun, hbits⟩ := hpathOf [] (by rw [hleave, h3, hdesc]; rfl)
      exact ⟨r, hrun, by rw [hbits]; rfl, by rw [hbits]; exact List.chain'_singleton _⟩
    · have hedge : Edge g src m := ⟨c, by rw [hsuc]; exact List.mem_singleton_self _⟩
      rcases dfs_open_chain ⟨g, src, none⟩ rfl hdeg _ m _ _ _ hcall
          (by simp [descend]) (Relation.ReflTransGen.single hedge) with
        ⟨hmb, hp⟩ | ⟨_, ch, X, hhead, hchain, hp, hX⟩
      · have hms : m = src := by simpa [descend, LtpState.init] using hmb
        subst hms
        obtain ⟨r, hrun, hbits⟩ := hpathOf [m] (by rw [hleave, hp, hdesc]; simp)
        refine ⟨r, hrun, by rw [hbits]; rfl, ?_⟩
        rw [hbits]
        simpa using hedge
      · obtain ⟨r, hrun, hbits⟩ := hpathOf (X ++ ch.reverse)
          (by rw [hleave, hp, hdesc]; simp)
        refine ⟨r, hrun, by rw [hbits]; rfl, ?_⟩
        rw [hbits, List.reverse_append, List.reverse_reverse]
        apply List.Chain'.cons'
        · rw [List.chain'_append]
          refine ⟨hchain, ?_, ?_⟩
          · rcases hX with hX | ⟨hX, _⟩ <;> rw [hX] <;> simp
          · intro x hx y hy
            rcases hX with hX | ⟨hX, last, hlast, hle⟩
            · rw [hX] at hy; simp at hy
            · rw [hX] at hy
              rw [hlast] at hx
              simp only [Option.mem_def, Option.some.injEq, List.reverse_cons,
                List.reverse_nil, List.nil_append, List.head?_cons] at hx hy
              rw [← hx, ← hy]; exact hle
        · intro y hy
          have hne : ch ≠ [] := by
            intro hnil; rw [hnil] at hhead; simp at hhead
          rw [List.head?_append_of_ne_nil _ hne, hhead] at hy
          simp only [Option.mem_def, Option.some.injEq] at hy
          exact hy ▸ hedge

/-- Witness for C16 (amended): the edge `0 → 1` next to a bit `5` with two outgoing
edges that the source `0` does not reach; the report is the chain `0, 1`. -/
theorem run_open_single_chain_witness :
    (∀ u, Reach strayBranching 0 u → (succs strayBranching u).length ≤ 1) ∧
    (succs strayBranching 5).length = 2 ∧
    run ⟨strayBranching, 0, none⟩ 3 =
      some ⟨false, ⟨[], [0, 1, 0], []⟩, Report.records [(0, 0, none), (1, 1, none)]⟩ ∧
    ∃ r, run ⟨strayBranching, 0, none⟩ (strayBranching.length + 1 + 0) = some r ∧
      r.report.bits.head? = some 0 ∧ List.Chain' (Edge strayBranching) r.report.bits :=
  ⟨fun u hu => by
     have h := reach_mem_of_closed [0, 1] (by decide) (by decide) hu
     simp only [List.mem_cons, List.mem_singleton, List.not_mem_nil, or_false] at h
     rcases h with rfl | rfl <;> decide,
   rfl, rfl,
   run_open_single_chain strayBranching 0 0 (fun u hu => by
     have h := reach_mem_of_closed [0, 1] (by decide) (by decide) hu
     simp only [List.mem_cons, List.mem_singleton, List.not_mem_nil, or_false] at h
     rcases h with rfl | rfl <;> decide)⟩

/-! ## The graph builder: pools and lookups -/

theorem mem_poolInsert {p : List SigBit} {b x : SigBit} :
    x ∈ poolInsert p b ↔ x ∈ p ∨ x = b := by
  unfold poolInsert
  split
  · constructor
    · exact Or.inl
    · rintro (h | rfl)
      · exact h
      · assumption
  · simp

theorem mem_connBits (sigmap : SigBit → SigBit) (conn : Conn) :
    ∀ (l : List SigBit) (acc : List SigBit × List SigBit) (x : SigBit),
      (x ∈ (l.foldl (fun a bit =>
          (if conn.input then poolInsert a.1 (sigmap bit) else a.1,
           if conn.output then poolInsert a.2 (sigmap bit) else a.2)) acc).1 ↔
        x ∈ acc.1 ∨ (conn.input = true ∧ ∃ bit ∈ l, sigmap bit = x)) ∧
      (x ∈ (l.foldl (fun a bit =>
          (if conn.input then poolInsert a.1 (sigmap bit) else a.1,
           if conn.output then poolInsert a.2 (sigmap bit) else a.2)) acc).2 ↔
        x ∈ acc.2 ∨ (conn.output = true ∧ ∃ bit ∈ l, sigmap bit = x)) := by
  intro l
  induction l with
  | nil => intro acc x; simp
  | cons b rest ih =>
    intro acc x
    simp only [List.foldl_cons]
    obtain ⟨h1, h2⟩ := ih (if conn.input then poolInsert acc.1 (sigmap b) else acc.1,
      if conn.output then poolInsert acc.2 (sigmap b) else acc.2) x
    constructor
    · rw [h1]
      cases hin : conn.input
      · simp
      · simp only [if_true, mem_poolInsert, true_and, List.mem_cons, exists_eq_or_imp,
          or_assoc, @eq_comm _ x]
    · rw [h2]
      cases hout : conn.output
      · simp
      · simp only [if_true, mem_poolInsert, true_and, List.mem_cons, exists_eq_or_imp,
          or_assoc, @eq_comm _ x]

theorem mem_cellBits_aux (sigmap : SigBit → SigBit) :
    ∀ (conns : List Conn) (acc : List SigBit × List SigBit) (x : SigBit),
      (x ∈ (conns.foldl (connBits sigmap) acc).1 ↔
        x ∈ acc.1 ∨ ∃ conn ∈ conns, conn.input = true ∧ ∃ bit ∈ conn.sig, sigmap bit = x) ∧
      (x ∈ (conns.foldl (connBits sigmap) acc).2 ↔
        x ∈ acc.2 ∨ ∃ conn ∈ conns, conn.output = true ∧ ∃ bit ∈ conn.sig, sigmap bit = x) := by
  intro conns
  induction conns with
  | nil => intro acc x; simp
  | cons c rest ih =>
    intro acc x
    simp only [List.foldl_cons]
    obtain ⟨h1, h2⟩ := ih (connBits sigmap acc c) x
    obtain ⟨g1, g2⟩ := mem_connBits sigmap c c.sig acc x
    constructor
    · rw [h1]; unfold connBits; rw [g1]
      simp only [List.mem_cons, exists_eq_or_imp, or_assoc]
    · rw [h2]; unfold connBits; rw [g2]
      simp only [List.mem_cons, exists_eq_or_imp, or_assoc]

/-- The pools of a cell hold exactly its canonical input bits and output bits. -/
theorem mem_cellBits (sigmap : SigBit → SigBit) (c : CellDecl) (x : SigBit) :
    (x ∈ (cellBits sigmap c).1 ↔ IsInput sigmap c x) ∧
    (x ∈ (cellBits sigmap c).2 ↔ IsOutput sigmap c x) := by
  obtain ⟨h1, h2⟩ := mem_cellBits_aux sigmap c.connections ([], []) x
  unfold cellBits IsInput IsOutput
  constructor
  · rw [h1]; simp
  · rw [h2]; simp

theorem find_dictSet (m : List (SigBit × Cell)) (d d' : SigBit) (c : Cell) :
    ((dictSet m d c).find? (fun e => decide (e.1 = d'))).map Prod.snd =
      if d' = d then some c else (m.find? (fun e => decide (e.1 = d'))).map Prod.snd := by
  induction m with
  | nil =>
    by_cases h : d' = d
    · simp [dictSet, h]
    · simp [dictSet, h, Ne.symm h]
  | cons kv rest ih =>
    obtain ⟨k, v⟩ := kv
    by_cases hk : k = d
    · subst hk
      by_cases h : d' = k
      · simp [dictSet, h]
      · simp [dictSet, h, Ne.symm h]
    · by_cases hkd : k = d'
      · subst hkd
        simp [dictSet, hk]
      · simp only [dictSet, if_neg hk, List.find?_cons, hkd, decide_False]
        exact ih

theorem succs_bit2bitsSet (g : Bit2Bits) (s d s' : SigBit) (c : Cell) :
    succs (bit2bitsSet g s d c) s' =
      if s' = s then dictSet (succs g s) d c else succs g s' := by
  induction g with
  | nil =>
    by_cases h : s' = s
    · simp [bit2bitsSet, succs, h, dictSet]
    · simp [bit2bitsSet, succs, h, Ne.symm h]
  | cons kv rest ih =>
    obtain ⟨k, m⟩ := kv
    by_cases hk : k = s
    · subst hk
      by_cases h : s' = k
      · simp [bit2bitsSet, succs, h]
      · simp [bit2bitsSet, succs, h, Ne.symm h]
    · by_cases hks : k = s'
      · subst hks
        simp [bit2bitsSet, succs, hk]
      · simp only [bit2bitsSet, if_neg hk, succs, if_neg hks]
        rw [ih]

theorem label_bit2bitsSet (g : Bit2Bits) (s d s' d' : SigBit) (c : Cell) :
    label (bit2bitsSet g s d c) s' d' =
      if s' = s ∧ d' = d then some c else label g s' d' := by
  unfold label
  rw [succs_bit2bitsSet]
  by_cases hs : s' = s
  · subst hs
    simp only [if_true, true_and]
    exact find_dictSet _ _ _ _
  · simp [hs]

theorem label_foldl_dst (s : SigBit) (c : Cell) (s' d' : SigBit) :
    ∀ (dst : List SigBit) (g : Bit2Bits),
      label (dst.foldl (fun g2 d => bit2bitsSet g2 s d c) g) s' d' =
        if s' = s ∧ d' ∈ dst then some c else label g s' d' := by
  intro dst
  induction dst with
  | nil => intro g; simp
  | cons d rest ih =>
    intro g
    simp only [List.foldl_cons]
    rw [ih, label_bit2bitsSet]
    by_cases hs : s' = s
    · by_cases hr : d' ∈ rest
      · simp [hs, hr]
      · by_cases hd : d' = d
        · simp [hs, hd]
        · simp [hs, hr, hd]
    · simp [hs]

theorem label_addEdges (dst : List SigBit) (c : Cell) (s' d' : SigBit) :
    ∀ (src : List SigBit) (g : Bit2Bits),
      label (addEdges src dst c g) s' d' =
        if s' ∈ src ∧ d' ∈ dst then some c else label g s' d' := by
  intro src
  induction src with
  | nil => intro g; simp [addEdges]
  | cons s rest ih =>
    intro g
    have ih' := ih (dst.foldl (fun g2 d => bit2bitsSet g2 s d c) g)
    unfold addEdges at ih' ⊢
    simp only [List.foldl_cons]
    rw [ih', label_foldl_dst]
    by_cases hd : d' ∈ dst
    · by_cases hr : s' ∈ rest
      · simp [hr, hd]
      · by_cases hs : s' = s
        · simp [hs, hd]
        · simp [hr, hs, hd]
    · simp [hd]

theorem label_addCell (sigmap : SigBit → SigBit) (g : Bit2Bits) (c : CellDecl)
    (s d : SigBit) :
    (IsInput sigmap c s ∧ IsOutput sigmap c d → label (addCell sigmap g c) s d = some c.cell) ∧
    (¬ (IsInput sigmap c s ∧ IsOutput sigmap c d) →
      label (addCell sigmap g c) s d = label g s d) := by
  unfold addCell
  rw [label_addEdges]
  have h1 := (mem_cellBits sigmap c s).1
  have h2 := (mem_cellBits sigmap c d).2
  constructor
  · intro h; rw [if_pos ⟨h1.2 h.1, h2.2 h.2⟩]
  · intro h; rw [if_neg (fun hm => h ⟨h1.1 hm.1, h2.1 hm.2⟩)]

theorem label_foldl_addCell (sigmap : SigBit → SigBit) (s d : SigBit) (c : Cell) :
    ∀ (cells : List CellDecl) (g : Bit2Bits),
      label (cells.foldl (addCell sigmap) g) s d = some c ↔
        (∃ pre cell post, cells = pre ++ cell :: post ∧ cell.cell = c ∧
          IsInput sigmap cell s ∧ IsOutput sigmap cell d ∧
          ∀ x ∈ post, ¬ (IsInput sigmap x s ∧ IsOutput sigmap x d)) ∨
        ((∀ x ∈ cells, ¬ (IsInput sigmap x s ∧ IsOutput sigmap x d)) ∧ label g s d = some c) := by
  intro cells
  induction cells with
  | nil => intro g; simp
  | cons x xs ih =>
    intro g
    simp only [List.foldl_cons]
    rw [ih]
    obtain ⟨hyes, hno⟩ := label_addCell sigmap g x s d
    constructor
    · rintro (⟨pre, cell, post, hxs, hc, hi, ho, hpost⟩ | ⟨hall, hl⟩)
      · exact Or.inl ⟨x :: pre, cell, post, by rw [hxs]; rfl, hc, hi, ho, hpost⟩
      · by_cases hx : IsInput sigmap x s ∧ IsOutput sigmap x d
        · rw [hyes hx] at hl
          exact Or.inl ⟨[], x, xs, rfl, Option.some.inj hl, hx.1, hx.2, hall⟩
        · rw [hno hx] at hl
          refine Or.inr ⟨?_, hl⟩
          intro y hy
          rcases List.mem_cons.1 hy with rfl | hy
          · exact hx
          · exact hall y hy
    · rintro (⟨pre, cell, post, hxs, hc, hi, ho, hpost⟩ | ⟨hall, hl⟩)
      · cases pre with
        | nil =>
          simp only [List.nil_append, List.cons.injEq] at hxs
          obtain ⟨rfl, rfl⟩ := hxs
          exact Or.inr ⟨hpost, by rw [hyes ⟨hi, ho⟩, hc]⟩
        | cons p pre' =>
          simp only [List.cons_append, List.cons.injEq] at hxs
          exact Or.inl ⟨pre', cell, post, hxs.2, hc, hi, ho, hpost⟩
      · refine Or.inr ⟨fun y hy => hall y (List.mem_cons_of_mem _ hy), ?_⟩
        rw [hno (hall x (List.mem_cons_self _ _))]
        exact hl

/-! ## The graph builder: entries and labels -/

theorem label_foldl_addCell_none (sigmap : SigBit → SigBit) (s d : SigBit) :
    ∀ (cells : List CellDecl) (g : Bit2Bits),
      label (cells.foldl (addCell sigmap) g) s d = none ↔
        (∀ x ∈ cells, ¬ (IsInput sigmap x s ∧ IsOutput sigmap x d)) ∧ label g s d = none := by
  intro cells
  induction cells with
  | nil => intro g; simp
  | cons x xs ih =>
    intro g
    simp only [List.foldl_cons]
    rw [ih]
    obtain ⟨hyes, hno⟩ := label_addCell sigmap g x s d
    by_cases hx : IsInput sigmap x s ∧ IsOutput sigmap x d
    · rw [hyes hx]
      constructor
      · rintro ⟨_, h⟩; exact absurd h (by simp)
      · rintro ⟨h, _⟩; exact absurd hx (h x (List.mem_cons_self _ _))
    · rw [hno hx]
      simp only [List.mem_cons, forall_eq_or_imp]
      tauto

theorem keys_dictSet (m : List (SigBit × Cell)) (d : SigBit) (c : Cell) :
    (dictSet m d c).map Prod.fst =
      if d ∈ m.map Prod.fst then m.map Prod.fst else m.map Prod.fst ++ [d] := by
  induction m with
  | nil => simp [dictSet]
  | cons kv rest ih =>
    obtain ⟨k, v⟩ := kv
    by_cases hk : k = d
    · simp [dictSet, hk]
    · have hdk : ¬ d = k := fun h => hk h.symm
      simp only [dictSet, if_neg hk, List.map_cons, ih, List.mem_cons, hdk, false_or]
      split <;> simp

theorem nodup_keys_dictSet {m : List (SigBit × Cell)} (h : (m.map Prod.fst).Nodup)
    (d : SigBit) (c : Cell) : ((dictSet m d c).map Prod.fst).Nodup := by
  rw [keys_dictSet]
  split
  · exact h
  · rename_i hd
    exact List.Nodup.append h (List.nodup_singleton _) (by simpa using hd)

theorem keysNodup_bit2bitsSet {g : Bit2Bits} (h : KeysNodup g) (s d : SigBit) (c : Cell) :
    KeysNodup (bit2bitsSet g s d c) := by
  intro s'
  rw [succs_bit2bitsSet]
  split
  · exact nodup_keys_dictSet (h s) d c
  · exact h s'

theorem keysNodup_addEdges (dst : List SigBit) (c : Cell) :
    ∀ (src : List SigBit) (g : Bit2Bits), KeysNodup g → KeysNodup (addEdges src dst c g) := by
  have hinner : ∀ (s : SigBit) (l : List SigBit) (g : Bit2Bits), KeysNodup g →
      KeysNodup (l.foldl (fun g2 d => bit2bitsSet g2 s d c) g) := by
    intro s l
    induction l with
    | nil => intro g hg; exact hg
    | cons d rest ih => intro g hg; exact ih _ (keysNodup_bit2bitsSet hg s d c)
  intro src
  induction src with
  | nil => intro g hg; exact hg
  | cons s rest ih =>
    intro g hg
    exact ih _ (hinner s dst g hg)

theorem keysNodup_build (sigmap : SigBit → SigBit) (cells : List CellDecl) :
    KeysNodup (buildBit2Bits sigmap cells) := by
  have hfold : ∀ (l : List CellDecl) (g : Bit2Bits), KeysNodup g →
      KeysNodup (l.foldl (addCell sigmap) g) := by
    intro l
    induction l with
    | nil => intro g hg; exact hg
    | cons x xs ih => intro g hg; exact ih _ (keysNodup_addEdges _ _ _ g hg)
  exact hfold cells [] (fun s => by simp [succs])

/-- In a dict with each key once, the entries are the lookups. -/
theorem mem_iff_find_of_nodup :
    ∀ (m : List (SigBit × Cell)), (m.map Prod.fst).Nodup → ∀ (d : SigBit) (c : Cell),
      ((d, c) ∈ m ↔ (m.find? (fun e => decide (e.1 = d))).map Prod.snd = some c) := by
  intro m
  induction m with
  | nil => intro _ d c; simp
  | cons kv rest ih =>
    intro hnd d c
    obtain ⟨k, v⟩ := kv
    simp only [List.map_cons, List.nodup_cons] at hnd
    by_cases hk : k = d
    · subst hk
      simp only [List.mem_cons, Prod.mk.injEq, true_and, List.find?_cons, decide_True,
        Option.map_some', Option.some.injEq]
      constructor
      · rintro (h | h)
        · exact h.symm
        · exact absurd (List.mem_map.2 ⟨(k, c), h, rfl⟩) hnd.1
      · intro h; exact Or.inl h.symm
    · have hdk : ¬ d = k := fun h => hk h.symm
      simp only [List.mem_cons, Prod.mk.injEq, hdk, false_and, false_or, List.find?_cons, hk,
        decide_False]
      exact ih hnd.2 d c

theorem addEdges_nil_dst (c : Cell) :
    ∀ (src : List SigBit) (g : Bit2Bits), addEdges src [] c g = g := by
  intro src
  induction src with
  | nil => intro g; rfl
  | cons s rest ih => intro g; exact ih g

/-! ## Graph builder: claim C11 -/

/-- C11: after the graph builder has run over the cells, the entries of `bit2bits` are
its lookups; `bit2bits[s][d]` holds the cell `c` exactly when `c` is the last cell, in
cell iteration order, with the canonical bit `s` on an input connection and the canonical
bit `d` on an output connection; `bit2bits[s][d]` does not exist exactly when no cell has
both; and a cell with no output connections, or with no input connections, leaves the
map as it was. -/
theorem builder_last_writer_wins (sigmap : SigBit → SigBit) (cells : List CellDecl) :
    (∀ s d c, (d, c) ∈ succs (buildBit2Bits sigmap cells) s ↔
      label (buildBit2Bits sigmap cells) s d = some c) ∧
    (∀ s d c, label (buildBit2Bits sigmap cells) s d = some c ↔
      ∃ pre cell post, cells = pre ++ cell :: post ∧ cell.cell = c ∧
        IsInput sigmap cell s ∧ IsOutput sigmap cell d ∧
        ∀ x ∈ post, ¬ (IsInput sigmap x s ∧ IsOutput sigmap x d)) ∧
    (∀ s d, label (buildBit2Bits sigmap cells) s d = none ↔
      ∀ x ∈ cells, ¬ (IsInput sigmap x s ∧ IsOutput sigmap x d)) ∧
    (∀ (g : Bit2Bits) (cell : CellDecl),
      (∀ conn ∈ cell.connections, conn.output = false) → addCell sigmap g cell = g) ∧
    (∀ (g : Bit2Bits) (cell : CellDecl),
      (∀ conn ∈ cell.connections, conn.input = false) → addCell sigmap g cell = g) := by
  refine ⟨?_, ?_, ?_, ?_, ?_⟩
  · intro s d c
    exact mem_iff_find_of_nodup _ (keysNodup_build sigmap cells s) d c
  · intro s d c
    unfold buildBit2Bits
    rw [label_foldl_addCell]
    constructor
    · rintro (h | ⟨_, h⟩)
      · exact h
      · simp [label, succs] at h
    · exact Or.inl
  · intro s d
    unfold buildBit2Bits
    rw [label_foldl_addCell_none]
    simp [label, succs]
  · intro g cell hout
    have hdst : (cellBits sigmap cell).2 = [] := by
      apply List.eq_nil_iff_forall_not_mem.2
      intro x hx
      obtain ⟨conn, hc, ho, _⟩ := (mem_cellBits sigmap cell x).2.1 hx
      rw [hout conn hc] at ho
      exact absurd ho (by simp)
    unfold addCell
    rw [hdst]
    exact addEdges_nil_dst _ _ _
  · intro g cell hin
    have hsrc : (cellBits sigmap cell).1 = [] := by
      apply List.eq_nil_iff_forall_not_mem.2
      intro x hx
      obtain ⟨conn, hc, hi, _⟩ := (mem_cellBits sigmap cell x).1.1 hx
      rw [hin conn hc] at hi
      exact absurd hi (by simp)
    unfold addCell
    rw [hsrc]
    rfl

/-- Witness for C11: the module of the end-to-end example builds the chain
`A → B → C`, and a cell without output connections adds nothing to it. -/
theorem builder_last_writer_wins_witness :
    buildBit2Bits id moduleABC = chainABC ∧
    (∀ conn ∈ (⟨12, [⟨[0, 2], true, false⟩]⟩ : CellDecl).connections, conn.output = false) ∧
    addCell id chainABC ⟨12, [⟨[0, 2], true, false⟩]⟩ = chainABC :=
  ⟨rfl, by decide,
   (builder_last_writer_wins id moduleABC).2.2.2.1 chainABC ⟨12, [⟨[0, 2], true, false⟩]⟩
     (by decide)⟩

/-! ## The method `runner` terminates on sorted bits -/

theorem runner_succ (w : GraphIsomorphismWorker) (path : PathRef) (fuel : Nat) (bit : SigBit)
    (via : Option Cell) (st : IsoState) :
    runner w path (fuel + 1) bit via st =
      if (bit = w.to_bit_a ∧ st.path path = st.path_a) ∨
          (bit = w.to_bit_b ∧ st.path path = st.path_b) then
        some (true, st)
      else
        match runnerLoop (runner w path fuel) (succs w.bit2bits bit)
            (st.push_back (bit, via) path) with
        | none => none
        | some (true, st2) => some (true, st2)
        | some (false, st2) => some (false, st2.pop_back path) := by
  rfl

theorem runnerLoop_isSome {rec : SigBit → Option Cell → IsoState → Option (Bool × IsoState)} :
    ∀ (l : List (SigBit × Cell)),
      (∀ e ∈ l, ∀ via st, (rec e.1 via st).isSome = true) →
      ∀ st, (runnerLoop rec l st).isSome = true := by
  intro l
  induction l with
  | nil => intro _ st; simp [runnerLoop]
  | cons it rest ih =>
    intro hrec st
    simp only [runnerLoop]
    have hs := hrec it (List.mem_cons_self _ _) (some it.2) st
    cases hr : rec it.1 (some it.2) st with
    | none => simp [hr] at hs
    | some q =>
      obtain ⟨rb, st1⟩ := q
      cases rb with
      | true => simp
      | false =>
        simp only
        exact ih (fun e he => hrec e (List.mem_cons_of_mem _ he)) st1

/-- On a list of bits closed under the edges, along which the index grows, `runner`
returns from every listed bit once the fuel covers the bits listed after it. -/
theorem runner_isSome_of_order (w : GraphIsomorphismWorker) (path : PathRef)
    (order : List SigBit)
    (hord : ∀ u ∈ order, ∀ v, Edge w.bit2bits u v →
      v ∈ order ∧ order.indexOf u < order.indexOf v) :
    ∀ (fuel : Nat) (bit : SigBit) (via : Option Cell) (st : IsoState), bit ∈ order →
      order.length - order.indexOf bit ≤ fuel →
      (runner w path fuel bit via st).isSome = true := by
  intro fuel
  induction fuel with
  | zero =>
    intro bit via st hb hle
    have := List.indexOf_lt_length.2 hb
    omega
  | succ n ih =>
    intro bit via st hb hle
    rw [runner_succ]
    split
    · rfl
    · have hloop : (runnerLoop (runner w path n) (succs w.bit2bits bit)
          (st.push_back (bit, via) path)).isSome = true := by
        apply runnerLoop_isSome
        intro e he via' st'
        obtain ⟨hv, hlt⟩ := hord bit hb e.1 ⟨e.2, he⟩
        apply ih _ _ _ hv
        have := List.indexOf_lt_length.2 hv
        omega
      cases hl : runnerLoop (runner w path n) (succs w.bit2bits bit)
          (st.push_back (bit, via) path) with
      | none => simp [hl] at hloop
      | some q =>
        obtain ⟨rb, st2⟩ := q
        cases rb <;> simp

/-! ## Path finder: claims C12 to C15, C18, C19 -/

/-- C12 (what the code does, for every input): in open mode `path_found` is `false` after
`run()`, for every graph and every source bit; `dfs` has no open-mode case that returns
`true`. -/
theorem run_open_never_found (g : Bit2Bits) (src : SigBit) (k : Nat) :
    ∃ r, run ⟨g, src, none⟩ (g.length + 1 + k) = some r ∧ r.path_found = false := by
  obtain ⟨b, st, hd⟩ := dfs_init_returns ⟨g, src, none⟩ k
  obtain ⟨hb, _⟩ := dfs_open ⟨g, src, none⟩ rfl _ _ _ _ _ hd
  obtain ⟨r, hrun, hfound, _⟩ := run_of_dfs hd
  exact ⟨r, hrun, by rw [hfound, hb]⟩

/-- C13 (evaluation at the failing input): on the chain `A → B → C` (`0 → 1 → 2`) the
targeted search from `C` to `A` finds no route (`A` is not reachable from `C`), and `run()`
logs the record `0: C (via null)` instead of the warning `No path found from C to A`. -/
theorem run_no_route_still_reports_record :
    ¬ Reach chainABC 2 0 ∧
    run ⟨chainABC, 2, some 0⟩ 3 =
      some ⟨false, ⟨[], [2], []⟩, Report.records [(0, 2, none)]⟩ :=
  ⟨fun h => by
     have := reach_mem_of_closed [2] (by decide) (by decide) h
     simp at this,
   rfl⟩

/-- C14: when a targeted search succeeds, `path_with_cells` read in reverse is the list
of hops of a route from the source to the target: one entry per hop, the first entry's
bit is the source, each entry's cell labels the edge from its bit to the next entry's
bit, and the last entry's edge leads to the target.  This holds on every graph, cycles
included. -/
theorem path_with_cells_is_route (g : Bit2Bits) (src tgt : SigBit) (k : Nat) :
    ∃ r, run ⟨g, src, some tgt⟩ (g.length + 1 + k) = some r ∧
      (r.path_found = true →
        Route g src r.st.path_with_cells.reverse tgt) := by
  obtain ⟨b, st, hd⟩ := dfs_init_returns ⟨g, src, some tgt⟩ k
  obtain ⟨r, hrun, hfound, hpwc, _⟩ := run_of_dfs hd
  refine ⟨r, hrun, ?_⟩
  intro hf
  rw [hfound] at hf
  subst hf
  obtain ⟨_, _, _, _, htr⟩ := dfs_targeted ⟨g, src, some tgt⟩ tgt rfl _ _ _ _ _ hd
  obtain ⟨hs, hroute, _, hc⟩ := htr rfl
  rw [hpwc, hc]
  simpa [LtpState.init] using hroute

/-- Witness for C14 on the graph `0 → 1`, `1 → 0`, `1 → 2`, searching from `0` to `2`. -/
theorem path_with_cells_is_route_witness :
    ∃ r, run ⟨backEdge, 0, some 2⟩ (backEdge.length + 1 + 0) = some r ∧
      (r.path_found = true → Route backEdge 0 r.st.path_with_cells.reverse 2) :=
  path_with_cells_is_route backEdge 0 2 0

/-- C15: when the source bit has no outgoing edges, the open-mode search reports exactly
one record, the source bit (with `null`). -/
theorem run_open_source_without_edges (g : Bit2Bits) (src : SigBit) (k : Nat)
    (h : succs g src = []) :
    run ⟨g, src, none⟩ (k + 1) =
      some ⟨false, ⟨[], [src, src], []⟩, Report.records [(0, src, none)]⟩ := by
  have hd : dfs ⟨g, src, none⟩ (k + 1) src LtpState.init =
      some (false, ⟨[], [src, src], []⟩) := by
    rw [dfs_succ]
    simp [h, dfsLoop, leave, descend, enter, LtpState.init]
  unfold run
  simp [hd, List.range_succ]

/-- Witness for C15: the bit `2` at the end of the chain `0 → 1 → 2`. -/
theorem run_open_source_without_edges_witness :
    succs chainABC 2 = [] ∧
    run ⟨chainABC, 2, none⟩ (0 + 1) =
      some ⟨false, ⟨[], [2, 2], []⟩, Report.records [(0, 2, none)]⟩ :=
  ⟨rfl, run_open_source_without_edges chainABC 2 0 rfl⟩

/-- C18: every call `dfs(b)` that returns leaves `busy` as it was at entry, on every
graph and in both modes; during the call the only addition is `b` itself, which the
frame erases on exit.  Consequently `busy` is empty again after `run()`. -/
theorem busy_is_restored (w : LtpWorker) :
    (∀ (fuel : Nat) (b : SigBit) (st : LtpState) (res : Bool) (st' : LtpState),
      dfs w fuel b st = some (res, st') → st'.busy = st.busy) ∧
    (∀ k : Nat, ∃ r, run w (w.bit2bits.length + 1 + k) = some r ∧ r.st.busy = []) := by
  refine ⟨dfs_busy w, ?_⟩
  intro k
  obtain ⟨b, st, hd⟩ := dfs_init_returns w k
  obtain ⟨r, hrun, _, _, hbusy⟩ := run_of_dfs hd
  exact ⟨r, hrun, by rw [hbusy, dfs_busy w _ _ _ _ _ hd]; rfl⟩

/-- Witness for C18: the open search on the self-loop `0 → 0`, entered with `busy = [5]`. -/
theorem busy_is_restored_witness :
    dfs ⟨selfLoop, 0, none⟩ 3 0 ⟨[5], [], []⟩ = some (false, ⟨[5], [0, 0, 0], []⟩) ∧
    (⟨[5], [0, 0, 0], []⟩ : LtpState).busy = (⟨[5], [], []⟩ : LtpState).busy :=
  ⟨rfl, (busy_is_restored ⟨selfLoop, 0, none⟩).1 3 0 ⟨[5], [], []⟩ false
    ⟨[5], [0, 0, 0], []⟩ rfl⟩

/-- C19: in open mode, on every graph (cycles included) and for every source, the bits
that occur in the reported path are exactly the bits reachable from the source (the
source included): every outgoing edge of every visited bit is explored. -/
theorem run_open_reports_reachable_bits (g : Bit2Bits) (src : SigBit) (k : Nat) :
    ∃ r, run ⟨g, src, none⟩ (g.length + 1 + k) = some r ∧
      ∀ x, x ∈ r.report.bits ↔ Reach g src x := by
  obtain ⟨b, st, hd⟩ := dfs_init_returns ⟨g, src, none⟩ k
  obtain ⟨_, _, P, hP, hreach, hcompl⟩ := dfs_open ⟨g, src, none⟩ rfl _ _ _ _ _ hd
  have hpath : st.path = src :: P := by rw [hP, enter_path]; simp [LtpState.init]
  have hsrcP : src ∈ P := hcompl [] src (Route.nil _) (by simp [LtpState.init])
  obtain ⟨r, hrun, _, hbits⟩ := run_bits hd (by rw [hpath]; simp)
  refine ⟨r, hrun, ?_⟩
  have hmemP : ∀ x, x ∈ P ↔ Reach g src x := by
    intro x
    constructor
    · exact hreach x
    · intro hx
      obtain ⟨hs, hroute⟩ := hx.exists_route
      exact hcompl hs x hroute (by simp [LtpState.init])
  intro x
  rw [← hmemP x, hbits, hpath, List.reverse_cons]
  split
  · have hlen : (P.reverse ++ [src]).length - 1 = P.reverse.length := by simp
    rw [hlen, List.take_left]
    exact List.mem_reverse
  · rw [List.take_length]
    simp only [List.mem_append, List.mem_reverse, List.mem_singleton]
    constructor
    · rintro (h | rfl)
      · exact h
      · exact hsrcP
    · exact Or.inl

/-! ## Topological orderer and comparator: claims C17, C20 -/

/-- C17: on every acyclic graph `topological_sort()` completes without the cycle error
(with any fuel above the number of keys of `bit2bits`).  A bit that is reached again
after it was processed is skipped, the state unchanged; the error is thrown for a bit
that is visited but not yet processed, that is, still on the DFS stack. -/
theorem topological_sort_accepts_acyclic (w : GraphIsomorphismWorker) (k : Nat)
    (hacyc : Acyclic w.bit2bits) :
    (∃ order, topological_sort w (w.bit2bits.length + 1 + k) = some (Except.ok order)) ∧
    (∀ (fuel : Nat) (bit : SigBit) (st : TopoState), bit ∈ st.processed →
      topoDfs w.bit2bits (fuel + 1) bit st = some (Except.ok st)) ∧
    (∀ (fuel : Nat) (bit : SigBit) (st : TopoState), bit ∉ st.processed → bit ∈ st.visited →
      topoDfs w.bit2bits (fuel + 1) bit st =
        some (Except.error "Found a cycle in the circuit!")) := by
  refine ⟨topological_sort_acyclic w k hacyc, ?_, ?_⟩
  · intro fuel bit st hp
    rw [topoDfs_succ, if_pos hp]
  · intro fuel bit st hp hv
    rw [topoDfs_succ, if_neg hp, if_pos hv]
    rfl

/-- Witness for C17: the diamond `0 → 1 → 3`, `0 → 2 → 3`, where `3` is reached a second
time after it was processed. -/
theorem topological_sort_accepts_acyclic_witness :
    Acyclic diamond ∧
    topological_sort ⟨[0, 1, 2, 3], diamond, 0, 0, 3, 3⟩ 4 = some (Except.ok [0, 2, 1, 3]) ∧
    ∃ order, topological_sort ⟨[0, 1, 2, 3], diamond, 0, 0, 3, 3⟩ (diamond.length + 1 + 0) =
      some (Except.ok order) :=
  ⟨acyclic_of_increasing _ (by decide), rfl,
   (topological_sort_accepts_acyclic ⟨[0, 1, 2, 3], diamond, 0, 0, 3, 3⟩ 0
     (acyclic_of_increasing _ (by decide))).1⟩

/-- C20: when `topological_sort()` has returned `topo_order` without the cycle error,
every bit reachable from a bit of `topo_order` is in `topo_order` and lies on no cycle,
and for every bit of `topo_order` the call `runner(bit, via, path)` returns, for either
path and from every state, as soon as the fuel reaches the length of `topo_order`. -/
theorem runner_terminates_on_sorted_bits (w : GraphIsomorphismWorker) (fuel : Nat)
    (order : List SigBit) (h : topological_sort w fuel = some (Except.ok order)) :
    (∀ bit ∈ order, ∀ x, Reach w.bit2bits bit x →
      x ∈ order ∧ ¬ Relation.TransGen (Edge w.bit2bits) x x) ∧
    (∀ bit ∈ order, ∀ (path : PathRef) (via : Option Cell) (st : IsoState) (k : Nat),
      (runner w path (order.length + k) bit via st).isSome = true) := by
  obtain ⟨_, _, hord⟩ := topological_sort_ok h
  constructor
  · intro bit hb x hx
    have hxo : x ∈ order :=
      mem_order_of_reach (fun a ha b hab => (hord a ha b hab).1) hb hx
    exact ⟨hxo, fun hcyc => lt_irrefl _ (indexOf_lt_of_transGen hord hxo hcyc).2⟩
  · intro bit hb path via st k
    apply runner_isSome_of_order w path order hord _ _ _ _ hb
    omega

/-- Witness for C20: the chain `0 → 1 → 2` with all three bits in `bits`. -/
theorem runner_terminates_on_sorted_bits_witness :
    topological_sort ⟨[0, 1, 2], chainABC, 0, 0, 2, 2⟩ 3 = some (Except.ok [0, 1, 2]) ∧
    (runner ⟨[0, 1, 2], chainABC, 0, 0, 2, 2⟩ PathRef.a ([0, 1, 2].length + 0) 0 none
      ⟨[], []⟩).isSome = true :=
  ⟨rfl, (runner_terminates_on_sorted_bits ⟨[0, 1, 2], chainABC, 0, 0, 2, 2⟩ 3 [0, 1, 2]
    rfl).2 0 (by decide) PathRef.a none ⟨[], []⟩ 0⟩

end YosysYodelers
